import Mathlib

/-!
# The MRQD lock of `src/c/locks/mrqd_lock.h`

A shallow embedding of the multiple-reader queue-delegation lock.  Every atomic
operation, every `thread_yield()` and every `return` of the header is one step of
a thread-local step function `tstep`; the steps of several threads are
interleaved by `sysStep`.  A single call can also be run against an arbitrary
sequence of observed memory states (`exec`) or alone (`runSolo`).
-/

namespace MRQD

/-! ## Constants of the header and of the platform -/

/-- The compile-time constants of the header and the platform widths it relies on:
`G` is `MRQD_LOCK_NUMBER_OF_READER_GROUPS`, `P` is `MRQD_READ_PATIENCE_LIMIT`,
`w` is the width in bits of `unsigned int` and of `int`, and `Q` is the
number of messages the delegation queue can hold. -/
structure Params where
  G : Nat
  P : Int
  w : Nat
  Q : Nat
deriving DecidableEq, Repr

/-- The defaults of the header (lines 15 and 50) on a platform with 32-bit `int`,
with a delegation queue of 4096 messages. -/
def defaultParams : Params := { G := 4, P := 1000, w := 32, Q := 4096 }

/-! ## Data model -/

/-- The three arguments `mrqd_delegate` hands on: the function pointer, the
message size and the message address (lines 130-132). -/
structure Msg where
  funPtr : Nat
  messageSize : Nat
  messageAddress : Nat
deriving DecidableEq, Repr

/-- Modelled from the spec: the delegation queue `QDQueue` of
`qd_queues/qd_queue.h`, which is not among the sources.  The queue is either
closed or accepting, and holds the messages accepted since it was opened. -/
structure QDQueue where
  closed : Bool
  msgs : List Msg
deriving DecidableEq, Repr

/-- The struct `MRQDLock` (lines 53-58).  `mutexLock` is the flag of the TATAS
lock, `readIndicator` is the array `readerGroups` of the read indicator, one
counter per group. -/
structure MRQDLock where
  mutexLock : Bool
  queue : QDQueue
  readIndicator : List Nat
  writeBarrier : Nat
deriving DecidableEq, Repr

/-- The memory the threads share: the lock, and the log `ran` of the calls
`funPtr(messageSize, messageAddress)` made so far, oldest first. -/
structure World where
  l : MRQDLock
  ran : List Msg
deriving DecidableEq, Repr

/-! ## Machine arithmetic -/

/-- The value stored by `atomic_fetch_add(.., 1)` on a `w`-bit unsigned cell. -/
def fetch_add (w x : Nat) : Nat := (x + 1) % 2 ^ w

/-- The value stored by `atomic_fetch_sub(.., 1)` on a `w`-bit unsigned cell. -/
def fetch_sub (w x : Nat) : Nat := (x + 2 ^ w - 1) % 2 ^ w

/-- The `int` value of `x` on a `w`-bit two's-complement machine.  Signed
overflow is undefined in C; the model wraps, as the usual compilers do for
`readPatience = readPatience + 1` (line 115). -/
def wrapInt (w : Nat) (x : Int) : Int := (x + 2 ^ (w - 1)) % 2 ^ w - 2 ^ (w - 1)

/-! ## The inner mutex and the delegation queue -/

/-- Modelled from the spec: `tatas_is_locked` of `locks/tatas_lock.h` (not among
the sources) reads the flag of the test-and-test-and-set lock. -/
def tatas_is_locked (l : MRQDLock) : Bool := l.mutexLock

/-- Modelled from the spec: `tatas_try_lock` of `locks/tatas_lock.h` (not among
the sources): one test-and-set; it acquires the mutex iff the flag was clear and
leaves a held mutex as it is. -/
def tatas_try_lock (l : MRQDLock) : MRQDLock × Bool :=
  if l.mutexLock then (l, false) else ({ l with mutexLock := true }, true)

/-- Modelled from the spec: `tatas_unlock` of `locks/tatas_lock.h` (not among the
sources) clears the flag. -/
def tatas_unlock (l : MRQDLock) : MRQDLock := { l with mutexLock := false }

/-- Modelled from the spec: `qdq_open` of `qd_queues/qd_queue.h` (not among the
sources) puts the queue into its accepting state. -/
def qdq_open (q : QDQueue) : QDQueue := { q with closed := false }

/-- Modelled from the spec: `qdq_enqueue` of `qd_queues/qd_queue.h` (not among
the sources) accepts the message iff the queue is open and not full; a refused
message leaves the queue as it is. -/
def qdq_enqueue (cap : Nat) (q : QDQueue) (m : Msg) : QDQueue × Bool :=
  if !q.closed && decide (q.msgs.length < cap) then ({ q with msgs := q.msgs ++ [m] }, true)
  else (q, false)

/-- Modelled from the spec: `qdq_flush` of `qd_queues/qd_queue.h` (not among the
sources) runs every accepted message, in the order of acceptance, and closes the
queue.  The result is the closed queue and the messages that were run. -/
def qdq_flush (q : QDQueue) : QDQueue × List Msg := ({ closed := true, msgs := [] }, q.msgs)

/-! ## The read indicator (lines 22-45) -/

/-- The function `rgri_get_thread_id` (lines 22-27) for the thread whose
`pthread_self()` is `pthread_id`. -/
def rgri_get_thread_id (p : Params) (pthread_id : Nat) : Nat := (pthread_id / 11) % p.G

/-- The function `rgri_arrive` (lines 29-32): one `atomic_fetch_add` on the
group of the calling thread. -/
def rgri_arrive (p : Params) (pthread_id : Nat) (readerGroups : List Nat) : List Nat :=
  let thread_id := rgri_get_thread_id p pthread_id
  readerGroups.set thread_id (fetch_add p.w (readerGroups.getD thread_id 0))

/-- The function `rgri_depart` (lines 34-37): one `atomic_fetch_sub` on the
group of the calling thread. -/
def rgri_depart (p : Params) (pthread_id : Nat) (readerGroups : List Nat) : List Nat :=
  let thread_id := rgri_get_thread_id p pthread_id
  readerGroups.set thread_id (fetch_sub p.w (readerGroups.getD thread_id 0))

/-! ## Control points -/

/-- The three callers of `rgri_wait_all_readers_gone`. -/
inductive Caller where
  | lock
  | try_lock
  | delegate (m : Msg)
deriving DecidableEq, Repr

/-- The `return` statements of the six operations; `try_lock b` returns `b`. -/
inductive Ret where
  | lock
  | unlock
  | try_lock (b : Bool)
  | rlock
  | runlock
  | delegate
deriving DecidableEq, Repr

/-- The control point of a thread: where it stands in the header, with the
values of its local variables.  `idle`, `writeCS` and `readCS` are the points
between calls: holding nothing, back from `mrqd_lock` or a successful
`mrqd_try_lock`, and back from `mrqd_rlock`. -/
inductive PC where
  | idle
  | writeCS
  | readCS
  /- mrqd_lock: line 71 (load), line 72 (yield), line 74 -/
  | lock_barrier
  | lock_barrier_yield
  | lock_tatas
  /- mrqd_try_lock: line 90 (load), line 91 (yield), line 93 -/
  | try_barrier
  | try_barrier_yield
  | try_tatas
  /- rgri_wait_all_readers_gone at loop index i: line 41 (load), line 42 (yield) -/
  | wait_load (c : Caller) (i : Nat)
  | wait_yield (c : Caller) (i : Nat)
  /- mrqd_unlock: line 80 -/
  | unlock_tatas
  /- mrqd_rlock: lines 106, 107, 108, 109, 110, 112, 120 -/
  | rlock_arrive (bRaised : Bool) (readPatience : Int)
  | rlock_check (bRaised : Bool) (readPatience : Int)
  | rlock_depart (bRaised : Bool) (readPatience : Int)
  | rlock_wait (bRaised : Bool) (readPatience : Int)
  | rlock_yield (bRaised : Bool) (readPatience : Int)
  | rlock_raise (readPatience : Int)
  | rlock_lower
  /- mrqd_runlock: line 126 -/
  | runlock_depart
  /- mrqd_delegate: lines 134, 135, 138, 139, 141, 142, 143, 145, 151 -/
  | del_barrier (m : Msg)
  | del_barrier_yield (m : Msg)
  | del_try (m : Msg)
  | del_open (m : Msg)
  | del_call (m : Msg)
  | del_flush (m : Msg)
  | del_unlock (m : Msg)
  | del_enqueue (m : Msg)
  | del_yield (m : Msg)
  /- the return of an operation -/
  | ret (r : Ret)
deriving DecidableEq, Repr

/-- What a step does, as seen by an observer of the thread. -/
inductive Event where
  | loadBarrier (v : Nat)
  | thread_yield
  | tatas_lock (acquired : Bool)
  | tatas_try_lock (acquired : Bool)
  | tatas_unlock
  | tatas_is_locked (b : Bool)
  | rgri_arrive (g : Nat)
  | rgri_depart (g : Nat)
  | loadGroup (i : Nat) (v : Nat)
  | raiseBarrier
  | lowerBarrier
  | qdq_open
  | qdq_enqueue (m : Msg) (accepted : Bool)
  | qdq_flush (ms : List Msg)
  | funPtr (m : Msg)
  | ret (v : Option Bool)
deriving DecidableEq, Repr

/-- The value a `return` hands back: a boolean for `mrqd_try_lock`, nothing for
the other operations. -/
def Ret.value : Ret → Option Bool
  | .try_lock b => some b
  | _ => none

/-- Where a thread stands after a `return`. -/
def Ret.rest : Ret → PC
  | .lock => .writeCS
  | .try_lock true => .writeCS
  | .rlock => .readCS
  | _ => .idle

/-- The statement that follows the call of `rgri_wait_all_readers_gone`: the end
of `mrqd_lock` (line 76), `return true` (line 95), or the call of `funPtr`
(line 141). -/
def afterWait : Caller → PC
  | .lock => .ret .lock
  | .try_lock => .ret (.try_lock true)
  | .delegate m => .del_call m

/-- The loop test `i < MRQD_LOCK_NUMBER_OF_READER_GROUPS` of line 40. -/
def waitFrom (p : Params) (c : Caller) (i : Nat) : PC :=
  if i < p.G then .wait_load c i else afterWait c

/-! ## One step of one thread -/

/-- One step of the thread `pthread_id` standing at `pc` in the world `s`: the
world after the step, the next control point and the event.  Between calls
there is no step.  A step is one atomic operation on the lock, one
`thread_yield()`, one call of `funPtr`, or one `return`; the tests on local
variables (`i < G`, `readPatience == P && !bRaised`, `bRaised`) belong to the
step before them.  `tatas_lock` (line 74) spins: each of its steps is one
test-and-set, and the thread stays there until one succeeds. -/
def tstep (p : Params) (pthread_id : Nat) (s : World) : PC → Option (World × PC × Event)
  | .idle => none
  | .writeCS => none
  | .readCS => none
  -- mrqd_lock, lines 69-76
  | .lock_barrier =>
      some (s, if s.l.writeBarrier > 0 then .lock_barrier_yield else .lock_tatas,
        .loadBarrier s.l.writeBarrier)
  | .lock_barrier_yield => some (s, .lock_barrier, .thread_yield)
  | .lock_tatas =>
      if (tatas_try_lock s.l).2 then
        some ({ s with l := (tatas_try_lock s.l).1 }, waitFrom p .lock 0, .tatas_lock true)
      else some (s, .lock_tatas, .tatas_lock false)
  -- mrqd_try_lock, lines 88-99
  | .try_barrier =>
      some (s, if s.l.writeBarrier > 0 then .try_barrier_yield else .try_tatas,
        .loadBarrier s.l.writeBarrier)
  | .try_barrier_yield => some (s, .try_barrier, .thread_yield)
  | .try_tatas =>
      if (tatas_try_lock s.l).2 then
        some ({ s with l := (tatas_try_lock s.l).1 }, waitFrom p .try_lock 0,
          .tatas_try_lock true)
      else some ({ s with l := (tatas_try_lock s.l).1 }, .ret (.try_lock false),
          .tatas_try_lock false)
  -- rgri_wait_all_readers_gone, lines 39-45
  | .wait_load c i =>
      some (s, if 0 < s.l.readIndicator.getD i 0 then .wait_yield c i else waitFrom p c (i + 1),
        .loadGroup i (s.l.readIndicator.getD i 0))
  | .wait_yield c i => some (s, .wait_load c i, .thread_yield)
  -- mrqd_unlock, lines 78-81
  | .unlock_tatas => some ({ s with l := tatas_unlock s.l }, .ret .unlock, .tatas_unlock)
  -- mrqd_rlock, lines 101-122
  | .rlock_arrive bRaised readPatience =>
      some ({ s with l := { s.l with readIndicator := rgri_arrive p pthread_id s.l.readIndicator } },
        .rlock_check bRaised readPatience, .rgri_arrive (rgri_get_thread_id p pthread_id))
  | .rlock_check bRaised readPatience =>
      if tatas_is_locked s.l then
        some (s, .rlock_depart bRaised readPatience, .tatas_is_locked true)
      else some (s, if bRaised then .rlock_lower else .ret .rlock, .tatas_is_locked false)
  | .rlock_depart bRaised readPatience =>
      some ({ s with l := { s.l with readIndicator := rgri_depart p pthread_id s.l.readIndicator } },
        .rlock_wait bRaised readPatience, .rgri_depart (rgri_get_thread_id p pthread_id))
  | .rlock_wait bRaised readPatience =>
      if tatas_is_locked s.l then
        some (s, .rlock_yield bRaised readPatience, .tatas_is_locked true)
      else some (s, .rlock_arrive bRaised readPatience, .tatas_is_locked false)
  | .rlock_yield bRaised readPatience =>
      some (s, if readPatience = p.P ∧ bRaised = false then .rlock_raise readPatience
               else .rlock_wait bRaised (wrapInt p.w (readPatience + 1)),
        .thread_yield)
  | .rlock_raise readPatience =>
      some ({ s with l := { s.l with writeBarrier := fetch_add p.w s.l.writeBarrier } },
        .rlock_wait true (wrapInt p.w (readPatience + 1)), .raiseBarrier)
  | .rlock_lower =>
      some ({ s with l := { s.l with writeBarrier := fetch_sub p.w s.l.writeBarrier } },
        .ret .rlock, .lowerBarrier)
  -- mrqd_runlock, lines 124-127
  | .runlock_depart =>
      some ({ s with l := { s.l with readIndicator := rgri_depart p pthread_id s.l.readIndicator } },
        .ret .runlock, .rgri_depart (rgri_get_thread_id p pthread_id))
  -- mrqd_delegate, lines 129-153
  | .del_barrier m =>
      some (s, if s.l.writeBarrier > 0 then .del_barrier_yield m else .del_try m,
        .loadBarrier s.l.writeBarrier)
  | .del_barrier_yield m => some (s, .del_barrier m, .thread_yield)
  | .del_try m =>
      if (tatas_try_lock s.l).2 then
        some ({ s with l := (tatas_try_lock s.l).1 }, .del_open m, .tatas_try_lock true)
      else some ({ s with l := (tatas_try_lock s.l).1 }, .del_enqueue m, .tatas_try_lock false)
  | .del_open m =>
      some ({ s with l := { s.l with queue := qdq_open s.l.queue } },
        waitFrom p (.delegate m) 0, .qdq_open)
  | .del_call m => some ({ s with ran := s.ran ++ [m] }, .del_flush m, .funPtr m)
  | .del_flush m =>
      some ({ l := { s.l with queue := (qdq_flush s.l.queue).1 },
              ran := s.ran ++ (qdq_flush s.l.queue).2 },
        .del_unlock m, .qdq_flush (qdq_flush s.l.queue).2)
  | .del_unlock _ => some ({ s with l := tatas_unlock s.l }, .ret .delegate, .tatas_unlock)
  | .del_enqueue m =>
      if (qdq_enqueue p.Q s.l.queue m).2 then
        some ({ s with l := { s.l with queue := (qdq_enqueue p.Q s.l.queue m).1 } },
          .ret .delegate, .qdq_enqueue m true)
      else some ({ s with l := { s.l with queue := (qdq_enqueue p.Q s.l.queue m).1 } },
          .del_yield m, .qdq_enqueue m false)
  | .del_yield m => some (s, .del_try m, .thread_yield)
  -- return
  | .ret r => some (s, r.rest, .ret r.value)

/-! ## Calls -/

/-- The six operations a client can call. -/
inductive Op where
  | mrqd_lock
  | mrqd_unlock
  | mrqd_try_lock
  | mrqd_rlock
  | mrqd_runlock
  | mrqd_delegate (m : Msg)
deriving DecidableEq, Repr

/-- The first control point of an operation, for a thread that may call it: a
thread holding nothing may call `mrqd_lock`, `mrqd_try_lock`, `mrqd_rlock` and
`mrqd_delegate`; `mrqd_unlock` is for the thread back from `mrqd_lock`, and
`mrqd_runlock` for a thread back from `mrqd_rlock`.  `mrqd_rlock` starts with
`bRaised = false` and `readPatience = 0` (lines 103-104). -/
def enter : Op → PC → Option PC
  | .mrqd_lock, .idle => some .lock_barrier
  | .mrqd_try_lock, .idle => some .try_barrier
  | .mrqd_rlock, .idle => some (.rlock_arrive false 0)
  | .mrqd_delegate m, .idle => some (.del_barrier m)
  | .mrqd_unlock, .writeCS => some .unlock_tatas
  | .mrqd_runlock, .readCS => some .runlock_depart
  | _, _ => none

/-- The function `mrqd_is_locked` (lines 83-86). -/
def mrqd_is_locked (s : World) : Bool := tatas_is_locked s.l

/-- The zero-initialised lock that `mrqd_initialize` (lines 60-67) sets up:
mutex unlocked, queue empty and closed, every reader group and the write
barrier zero; nothing has run yet. -/
def zeroWorld (p : Params) : World :=
  { l := { mutexLock := false, queue := { closed := true, msgs := [] },
           readIndicator := List.replicate p.G 0, writeBarrier := 0 },
    ran := [] }

/-! ## One call against observed memory -/

/-- One step of a call as recorded by `exec`: the world the step found, the
event, and the world the step left. -/
structure Rec where
  pre : World
  ev : Event
  post : World
deriving DecidableEq, Repr

/-- Runs a thread from `pc`, its `k`-th step finding the `k`-th world of `obs`
(the other threads may have changed anything in between), until the call
returns or `obs` is used up.  The result is the record of the steps and the
control point reached. -/
def exec (p : Params) (pthread_id : Nat) : PC → List World → List Rec × PC
  | pc, [] => ([], pc)
  | pc, s :: obs =>
    match tstep p pthread_id s pc with
    | none => ([], pc)
    | some (s', pc', e) =>
      ({ pre := s, ev := e, post := s' } :: (exec p pthread_id pc' obs).1,
        (exec p pthread_id pc' obs).2)

/-- The events of an execution. -/
def events (rs : List Rec) : List Event := rs.map Rec.ev

/-- A control point between calls. -/
def PC.atRest : PC → Bool
  | .idle => true
  | .writeCS => true
  | .readCS => true
  | _ => false

/-! ## One thread alone -/

/-- Runs a thread alone from `pc` in world `s` for at most `fuel` steps, each
step finding the world the previous one left; stops when the call has returned.
The result is the final world, the control point and the record of the steps. -/
def runSolo (p : Params) (pthread_id : Nat) : Nat → World → PC → World × PC × List Rec
  | 0, s, pc => (s, pc, [])
  | fuel + 1, s, pc =>
    match tstep p pthread_id s pc with
    | none => (s, pc, [])
    | some (s', pc', e) =>
      ((runSolo p pthread_id fuel s' pc').1, (runSolo p pthread_id fuel s' pc').2.1,
        { pre := s, ev := e, post := s' } :: (runSolo p pthread_id fuel s' pc').2.2)

/-- Calls `op` from the control point `pc` and runs it alone for at most `fuel`
steps; `none` if the operation may not be called there. -/
def callSolo (p : Params) (pthread_id : Nat) (fuel : Nat) (op : Op) (s : World) (pc : PC) :
    Option (World × PC × List Rec) :=
  (enter op pc).map fun pc0 => runSolo p pthread_id fuel s pc0

/-- The final world, the control point and the events of `callSolo`. -/
def callSoloEvents (p : Params) (pthread_id : Nat) (fuel : Nat) (op : Op) (s : World) (pc : PC) :
    Option (World × PC × List Event) :=
  (callSolo p pthread_id fuel op s pc).map fun x => (x.1, x.2.1, events x.2.2)

/-! ## Interleaving -/

/-- A thread: its `pthread_self()` and its control point. -/
structure Thread where
  tid : Nat
  pc : PC
deriving DecidableEq, Repr

/-- The system: the shared world and the threads. -/
structure Sys where
  world : World
  threads : List Thread
deriving DecidableEq, Repr

/-- What the scheduler lets a thread do: call an operation, or take one step of
the operation it is in. -/
inductive Action where
  | call (op : Op)
  | step
deriving DecidableEq, Repr

/-- One step of the system: thread number `i` performs `a`. -/
def sysStep (p : Params) (i : Nat) (a : Action) (s : Sys) : Option Sys :=
  match s.threads[i]? with
  | none => none
  | some t =>
    match a with
    | .call op =>
      match enter op t.pc with
      | none => none
      | some pc' => some { s with threads := s.threads.set i { t with pc := pc' } }
    | .step =>
      match tstep p t.tid s.world t.pc with
      | none => none
      | some (w', pc', _) => some { world := w', threads := s.threads.set i { t with pc := pc' } }

/-- The initial system: the zero-initialised lock and every thread idle. -/
def initSys (p : Params) (tids : List Nat) : Sys :=
  { world := zeroWorld p, threads := tids.map fun t => { tid := t, pc := .idle } }

/-- Runs a schedule, a list of (thread number, action), from `s`. -/
def runSched (p : Params) : List (Nat × Action) → Sys → Option Sys
  | [], s => some s
  | (i, a) :: rest, s =>
    match sysStep p i a s with
    | none => none
    | some s' => runSched p rest s'

/-- The states the system reaches from the initial one. -/
inductive Reachable (p : Params) (tids : List Nat) : Sys → Prop where
  | init : Reachable p tids (initSys p tids)
  | step {s s' : Sys} (i : Nat) (a : Action) :
      Reachable p tids s → sysStep p i a s = some s' → Reachable p tids s'

/-- Runs the operations of `ops` one after the other, each alone and to its
return, with `fuel` steps for each; `none` if one of them may not be called
where the thread stands or has not returned within `fuel` steps. -/
def callsSolo (p : Params) (pthread_id : Nat) (fuel : Nat) :
    List Op → World → PC → Option (World × PC)
  | [], s, pc => some (s, pc)
  | op :: ops, s, pc =>
    match callSolo p pthread_id fuel op s pc with
    | none => none
    | some (s', pc', _) =>
      if pc'.atRest then callsSolo p pthread_id fuel ops s' pc' else none

/-- The zero-initialised lock with the inner mutex taken. -/
def heldWorld (p : Params) : World :=
  { zeroWorld p with l := { (zeroWorld p).l with mutexLock := true } }

/-- The zero-initialised lock after `rgri_arrive` of thread `pthread_id`. -/
def arrivedWorld (p : Params) (pthread_id : Nat) : World :=
  { zeroWorld p with
    l := { (zeroWorld p).l with
           readIndicator := rgri_arrive p pthread_id (zeroWorld p).l.readIndicator } }

/-- The world with the flag of the inner mutex set to `b`. -/
def World.setMutex (s : World) (b : Bool) : World :=
  { s with l := { s.l with mutexLock := b } }

/-- The client's call `funPtr(messageSize, messageAddress)` inside its own write
section: the same effect on the world as line 141. -/
def callFn (m : Msg) (s : World) : World := { s with ran := s.ran ++ [m] }

/-- Every reader group of the world is zero. -/
def groupsZero (s : World) : Prop := ∀ i, s.l.readIndicator.getD i 0 = 0

/-- The thread holds the inner mutex: from its successful `tatas_lock` or
`tatas_try_lock` to its `tatas_unlock`. -/
def PC.holder : PC → Bool
  | .wait_load _ _ => true
  | .wait_yield _ _ => true
  | .ret .lock => true
  | .ret (.try_lock true) => true
  | .writeCS => true
  | .unlock_tatas => true
  | .del_open _ => true
  | .del_call _ => true
  | .del_flush _ => true
  | .del_unlock _ => true
  | _ => false

/-- The thread holds the inner mutex and has completed
`rgri_wait_all_readers_gone`. -/
def PC.drained : PC → Bool
  | .ret .lock => true
  | .ret (.try_lock true) => true
  | .writeCS => true
  | .unlock_tatas => true
  | .del_call _ => true
  | .del_flush _ => true
  | .del_unlock _ => true
  | _ => false

/-- The number of reader groups a holder of the mutex has seen at zero. -/
def PC.progress (p : Params) (pc : PC) : Nat :=
  match pc with
  | .wait_load _ i => i
  | .wait_yield _ i => i
  | _ => if pc.drained then p.G else 0

/-- The thread has performed `rgri_arrive` and not yet the matching
`rgri_depart`. -/
def PC.counted : PC → Bool
  | .rlock_check _ _ => true
  | .rlock_depart _ _ => true
  | .rlock_lower => true
  | .ret .rlock => true
  | .readCS => true
  | .runlock_depart => true
  | _ => false

/-- The thread has arrived and then found the mutex free (line 107), and has
not yet departed. -/
def PC.committed : PC → Bool
  | .rlock_lower => true
  | .ret .rlock => true
  | .readCS => true
  | .runlock_depart => true
  | _ => false

/-- The thread is inside `mrqd_rlock` or `mrqd_runlock`. -/
def PC.inReaderCall : PC → Bool
  | .rlock_arrive _ _ => true
  | .rlock_check _ _ => true
  | .rlock_depart _ _ => true
  | .rlock_wait _ _ => true
  | .rlock_yield _ _ => true
  | .rlock_raise _ => true
  | .rlock_lower => true
  | .ret .rlock => true
  | .runlock_depart => true
  | .ret .runlock => true
  | _ => false

/-- The thread has raised the write barrier (line 112) and not yet lowered it
(line 120). -/
def PC.raised : PC → Bool
  | .rlock_arrive b _ => b
  | .rlock_check b _ => b
  | .rlock_depart b _ => b
  | .rlock_wait b _ => b
  | .rlock_yield b _ => b
  | .rlock_lower => true
  | _ => false

/-- The threads of group `g` that have arrived and not yet departed. -/
def inGroup (p : Params) (g : Nat) (t : Thread) : Bool :=
  t.pc.counted && decide (rgri_get_thread_id p t.tid = g)

/-- The invariant of the interleaving: the mutex flag is set exactly when one
thread holds it; every reader group counts the arrived threads of the group;
the write barrier counts the readers that have raised it; and a reader that
found the mutex free is in a group the holder has not yet seen at zero. -/
structure Inv (p : Params) (s : Sys) : Prop where
  len : s.world.l.readIndicator.length = p.G
  mutex : s.threads.countP (fun t => t.pc.holder) = if s.world.l.mutexLock then 1 else 0
  groups : ∀ g, s.world.l.readIndicator.getD g 0 = s.threads.countP (inGroup p g)
  barrier : s.world.l.writeBarrier = s.threads.countP (fun t => t.pc.raised)
  excl : ∀ t ∈ s.threads, ∀ r ∈ s.threads, t.pc.holder = true → r.pc.committed = true →
    t.pc.progress p ≤ rgri_get_thread_id p r.tid

/-- A schedule for three threads: thread 0 runs `mrqd_lock` to its return, then
thread 1 calls `mrqd_rlock`, arrives and finds the mutex held. -/
def writerThenReader : List (Nat × Action) :=
  [(0, .call .mrqd_lock)] ++ List.replicate 7 (0, .step)
    ++ [(1, .call .mrqd_rlock), (1, .step), (1, .step)]

/-- A schedule for three threads: threads 1 and 2 each run `mrqd_rlock` to its
return. -/
def twoReaders : List (Nat × Action) :=
  [(1, .call .mrqd_rlock), (1, .step), (1, .step), (1, .step),
   (2, .call .mrqd_rlock), (2, .step), (2, .step), (2, .step)]

/-- The world with the delegation queue replaced by `q`. -/
def World.setQueue (s : World) (q : QDQueue) : World :=
  { s with l := { s.l with queue := q } }

/-- The event is a write of `writeBarrier`: the increment of line 112 or the
decrement of line 120. -/
def isBarrierOp : Event → Bool
  | .raiseBarrier => true
  | .lowerBarrier => true
  | _ => false

/-- The writes of `writeBarrier` among the events, in order. -/
def barrierOps (tr : List Event) : List Event := tr.filter isBarrierOp

/-- The thread is inside `mrqd_rlock` with `bRaised` still false. -/
def PC.mayRaise : PC → Bool
  | .rlock_arrive b _ => !b
  | .rlock_check b _ => !b
  | .rlock_depart b _ => !b
  | .rlock_wait b _ => !b
  | .rlock_yield b _ => !b
  | .rlock_raise _ => true
  | _ => false

/-- The value of `writeBarrier` after a step with event `e` that found it at
`x`, on `w`-bit unsigned cells. -/
def barrierEffect (w : Nat) (e : Event) (x : Nat) : Nat :=
  match e with
  | .raiseBarrier => fetch_add w x
  | .lowerBarrier => fetch_sub w x
  | _ => x
/-- The number of `thread_yield`s before the first increment of the barrier;
`none` if the events hold no increment. -/
def yieldsBeforeRaise : List Event → Option Nat
  | [] => none
  | .raiseBarrier :: _ => some 0
  | .thread_yield :: tr => (yieldsBeforeRaise tr).map (· + 1)
  | _ :: tr => yieldsBeforeRaise tr

/-- The event that follows the `n`-th `thread_yield`, counted from 1; `none` if
there are fewer yields or nothing follows. -/
def afterYield : Nat → List Event → Option Event
  | _, [] => none
  | 0, _ :: _ => none
  | n + 1, .thread_yield :: tr => if n = 0 then tr.head? else afterYield n tr
  | n + 1, _ :: tr => afterYield (n + 1) tr

/-- The default parameters with a patience limit of 2. -/
def patienceTwo : Params := { defaultParams with P := 2 }

/-- The default parameters with a patience limit of 100. -/
def patienceHundred : Params := { defaultParams with P := 100 }

/-- The zero-initialised lock with the inner mutex held by another thread, seen
`n` times in a row. -/
def keptLocked (p : Params) (n : Nat) : List World := List.replicate n (heldWorld p)
/-- A step of the barrier loop: a load of `writeBarrier` or a yield; it leaves
the world as it found it. -/
def isBarrierRec (r : Rec) : Prop :=
  r.post = r.pre ∧ (r.ev = .thread_yield ∨ ∃ v, r.ev = .loadBarrier v)

/-- A step of `rgri_wait_all_readers_gone`: a load of a reader group or a yield;
it leaves the world as it found it. -/
def isDrainRec (r : Rec) : Prop :=
  r.post = r.pre ∧ (r.ev = .thread_yield ∨ ∃ i v, r.ev = .loadGroup i v)

/-- The indices of the reader groups loaded at zero, in the order of the
loads. -/
def zeroLoads : List Event → List Nat
  | [] => []
  | .loadGroup i v :: tr => if v = 0 then i :: zeroLoads tr else zeroLoads tr
  | _ :: tr => zeroLoads tr
/-- The events of `n` failed rounds of the delegate loop (lines 138, 145, 151):
`tatas_try_lock` fails, `qdq_enqueue` refuses the message, the thread yields. -/
def failedRounds (m : Msg) : Nat → List Event
  | 0 => []
  | n + 1 => .tatas_try_lock false :: .qdq_enqueue m false :: .thread_yield :: failedRounds m n

/-- The event schedules a message: a direct call of `funPtr`, or a
`qdq_enqueue` that accepted it. -/
def isScheduling : Event → Bool
  | .funPtr _ => true
  | .qdq_enqueue _ true => true
  | _ => false

/-- The last round of a delegate that took the mutex (lines 138-144): the
acquisition, `qdq_open`, the drain, the call of `funPtr` with the message, the
flush, the unlock and the return. -/
def directRun (p : Params) (m : Msg) (fin : List Rec) : Prop :=
  ∃ acq opn drain call flush unl rr,
    fin = [acq, opn] ++ drain ++ [call, flush, unl, rr]
    ∧ acq.ev = .tatas_try_lock true ∧ acq.pre.l.mutexLock = false
    ∧ acq.post.l.mutexLock = true
    ∧ opn.ev = .qdq_open
    ∧ (∀ r ∈ drain, isDrainRec r) ∧ zeroLoads (events drain) = List.range p.G
    ∧ call.ev = .funPtr m ∧ call.post = callFn m call.pre
    ∧ flush.ev = .qdq_flush flush.pre.l.queue.msgs
    ∧ unl.ev = .tatas_unlock
    ∧ rr.ev = .ret none

/-- The last round of a delegate whose message the queue accepted (lines
145-149): the failed `tatas_try_lock`, the accepted `qdq_enqueue`, which appends
the message to the queue, and the return. -/
def delegatedRun (m : Msg) (fin : List Rec) : Prop :=
  ∃ t e rr,
    fin = [t, e, rr]
    ∧ t.ev = .tatas_try_lock false ∧ t.post = t.pre
    ∧ e.ev = .qdq_enqueue m true
    ∧ e.post.l.queue.msgs = e.pre.l.queue.msgs ++ [m] ∧ e.post.ran = e.pre.ran
    ∧ rr.ev = .ret none

/-- Worlds for a `mrqd_try_lock` that succeeds with the default parameters: the
free lock twice, then the held lock five times. -/
def tryLockObs : List World :=
  [zeroWorld defaultParams, zeroWorld defaultParams] ++ List.replicate 5 (heldWorld defaultParams)

/-- Worlds for a `mrqd_delegate` with the default parameters: the lock held by
another thread with its queue closed for one round, then with its queue open. -/
def delegateObs : List World :=
  [heldWorld defaultParams, heldWorld defaultParams, heldWorld defaultParams,
   heldWorld defaultParams, heldWorld defaultParams,
   (heldWorld defaultParams).setQueue { closed := false, msgs := [] },
   (heldWorld defaultParams).setQueue { closed := false, msgs := [] }]

/-! ## Arithmetic of the counters -/

theorem two_pow_pos_nat (w : Nat) : 0 < 2 ^ w := Nat.pos_pow_of_pos w (by decide)

theorem fetch_sub_fetch_add (w x : Nat) : fetch_sub w (fetch_add w x) = x % 2 ^ w := by
  unfold fetch_sub fetch_add
  have hM := two_pow_pos_nat w
  generalize 2 ^ w = M at hM
  have h1 : (x + 1) % M + M - 1 = (x + 1) % M + (M - 1) := by omega
  rw [h1, Nat.add_mod, Nat.mod_mod, ← Nat.add_mod]
  have h2 : x + 1 + (M - 1) = x + M := by omega
  rw [h2, Nat.add_mod_right]

theorem fetch_add_of_lt (w x : Nat) (h : x + 1 < 2 ^ w) : fetch_add w x = x + 1 := by
  unfold fetch_add
  exact Nat.mod_eq_of_lt h

theorem fetch_sub_of_pos (w x : Nat) (h0 : 0 < x) (h : x < 2 ^ w) : fetch_sub w x = x - 1 := by
  unfold fetch_sub
  have h1 : x + 2 ^ w - 1 = (x - 1) + 2 ^ w := by omega
  rw [h1, Nat.add_mod_right]
  exact Nat.mod_eq_of_lt (by omega)

theorem rgri_get_thread_id_lt (p : Params) (hG : 1 ≤ p.G) (tid : Nat) :
    rgri_get_thread_id p tid < p.G :=
  Nat.mod_lt _ hG

theorem getD_set_self (l : List Nat) (i a : Nat) (h : i < l.length) :
    (l.set i a).getD i 0 = a := by
  simp [List.getD_eq_getElem?_getD, List.getElem?_set, h]

theorem getD_set_other (l : List Nat) (i j a : Nat) (h : i ≠ j) :
    (l.set i a).getD j 0 = l.getD j 0 := by
  simp [List.getD_eq_getElem?_getD, List.getElem?_set, h]

/-! ## The inner mutex -/

theorem tatas_try_lock_ok (l : MRQDLock) : (tatas_try_lock l).2 = !l.mutexLock := by
  unfold tatas_try_lock
  cases l.mutexLock <;> rfl

theorem tatas_try_lock_of_locked (l : MRQDLock) (h : l.mutexLock = true) :
    tatas_try_lock l = (l, false) := by
  simp [tatas_try_lock, h]

theorem tatas_try_lock_of_free (l : MRQDLock) (h : l.mutexLock = false) :
    tatas_try_lock l = ({ l with mutexLock := true }, true) := by
  simp [tatas_try_lock, h]

theorem tatas_try_lock_fst_of_fail (l : MRQDLock) (h : ¬ (tatas_try_lock l).2 = true) :
    (tatas_try_lock l).1 = l := by
  rw [tatas_try_lock_ok] at h
  rw [tatas_try_lock_of_locked l (by simpa using h)]

theorem tatas_try_lock_fst_of_ok (l : MRQDLock) (h : (tatas_try_lock l).2 = true) :
    l.mutexLock = false ∧ (tatas_try_lock l).1 = { l with mutexLock := true } := by
  rw [tatas_try_lock_ok] at h
  have h' : l.mutexLock = false := by simpa using h
  rw [tatas_try_lock_of_free l h']
  exact ⟨h', rfl⟩

theorem tatas_try_lock_fst_fields (l : MRQDLock) :
    (tatas_try_lock l).1.readIndicator = l.readIndicator
    ∧ (tatas_try_lock l).1.writeBarrier = l.writeBarrier
    ∧ (tatas_try_lock l).1.queue = l.queue := by
  unfold tatas_try_lock
  split <;> exact ⟨rfl, rfl, rfl⟩

/-! ## C10: the group index -/

/-- C10: for every thread identifier and every group count `G ≥ 1` the index
computed by `rgri_get_thread_id` is `(tid / 11) mod G`, it is below `G` and so
inside the array `readerGroups` of `G` counters; `rgri_arrive` and
`rgri_depart` of one thread write the same group only: after an arrive followed
by a depart that group holds its old value modulo `2^w`, and every other group
is unchanged, as is the number of groups. -/
theorem rgri_index_in_bounds_and_paired (p : Params) (hG : 1 ≤ p.G) (tid : Nat)
    (readerGroups : List Nat) (hlen : readerGroups.length = p.G) :
    rgri_get_thread_id p tid = (tid / 11) % p.G
    ∧ rgri_get_thread_id p tid < p.G
    ∧ rgri_get_thread_id p tid < readerGroups.length
    ∧ rgri_get_thread_id p tid < (rgri_arrive p tid readerGroups).length
    ∧ (rgri_arrive p tid readerGroups).getD (rgri_get_thread_id p tid) 0
        = (readerGroups.getD (rgri_get_thread_id p tid) 0 + 1) % 2 ^ p.w
    ∧ (rgri_depart p tid (rgri_arrive p tid readerGroups)).getD (rgri_get_thread_id p tid) 0
        = readerGroups.getD (rgri_get_thread_id p tid) 0 % 2 ^ p.w
    ∧ (∀ j, j ≠ rgri_get_thread_id p tid →
        (rgri_arrive p tid readerGroups).getD j 0 = readerGroups.getD j 0
        ∧ (rgri_depart p tid (rgri_arrive p tid readerGroups)).getD j 0 = readerGroups.getD j 0)
    ∧ (rgri_depart p tid (rgri_arrive p tid readerGroups)).length = p.G := by
  have hlt := rgri_get_thread_id_lt p hG tid
  have hlt2 : rgri_get_thread_id p tid < readerGroups.length := by omega
  refine ⟨rfl, hlt, hlt2, by simpa [rgri_arrive] using hlt2, ?_, ?_, ?_, ?_⟩
  · simp only [rgri_arrive]
    rw [getD_set_self _ _ _ hlt2]
    rfl
  · simp only [rgri_depart, rgri_arrive]
    rw [getD_set_self _ _ _ (by simpa using hlt2), getD_set_self _ _ _ hlt2]
    exact fetch_sub_fetch_add _ _
  · intro j hj
    simp only [rgri_depart, rgri_arrive]
    refine ⟨getD_set_other _ _ _ _ (Ne.symm hj), ?_⟩
    rw [getD_set_other _ _ _ _ (Ne.symm hj)]
    exact getD_set_other _ _ _ _ (Ne.symm hj)
  · simp [rgri_depart, rgri_arrive, hlen]

/-- C10, at a concrete input: thread 4242 with the default four groups. -/
theorem rgri_index_in_bounds_and_paired_witness :
    rgri_get_thread_id defaultParams 4242 = 1
    ∧ rgri_depart defaultParams 4242 (rgri_arrive defaultParams 4242 [7, 0, 5, 2]) = [7, 0, 5, 2]
    ∧ (rgri_depart defaultParams 4242 (rgri_arrive defaultParams 4242 [7, 0, 5, 2])).length = 4 :=
  ⟨by decide, by decide,
    (rgri_index_in_bounds_and_paired defaultParams (by decide) 4242 [7, 0, 5, 2] rfl).2.2.2.2.2.2.2⟩

/-! ## One thread alone: the round trips -/


theorem runSolo_rest (p : Params) (tid fuel : Nat) (s : World) (pc : PC) (h : pc.atRest = true) :
    runSolo p tid fuel s pc = (s, pc, []) := by
  cases fuel with
  | zero => rfl
  | succ n => cases pc <;> simp_all [runSolo, tstep, PC.atRest]

theorem runSolo_wait_zero (p : Params) (tid : Nat) (c : Caller) (s : World) (hz : groupsZero s)
    (k : Nat) : ∀ (n i : Nat), i + n = p.G →
    runSolo p tid (n + k) s (waitFrom p c i)
      = ((runSolo p tid k s (afterWait c)).1, (runSolo p tid k s (afterWait c)).2.1,
          (List.range' i n).map (fun j => ({ pre := s, ev := .loadGroup j 0, post := s } : Rec))
            ++ (runSolo p tid k s (afterWait c)).2.2) := by
  intro n
  induction n with
  | zero =>
    intro i hi
    have : ¬ i < p.G := by omega
    simp [waitFrom, this]
  | succ n ih =>
    intro i hi
    have hlt : i < p.G := by omega
    have hstep : n + 1 + k = (n + k) + 1 := by omega
    rw [hstep]
    simp only [waitFrom, hlt, if_true, runSolo, tstep, hz i, Nat.lt_irrefl, if_false]
    have := ih (i + 1) (by omega)
    simp only [waitFrom] at this
    rw [this]
    simp [List.range'_succ]

theorem groupsZero_zeroWorld (p : Params) : groupsZero (zeroWorld p) := by
  intro i
  simp only [zeroWorld, List.getD_eq_getElem?_getD]
  by_cases h : i < p.G
  · simp [List.getElem?_replicate, h]
  · simp [List.getElem?_replicate, h]

theorem replicate_set_zero (n i : Nat) : (List.replicate n 0).set i 0 = List.replicate n 0 := by
  apply List.ext_getElem?
  intro j
  by_cases hij : i = j
  · subst hij
    by_cases h : i < n
    · simp [List.getElem?_set, List.getElem?_replicate, h]
    · simp [List.getElem?_set, List.getElem?_replicate, h]
  · simp [List.getElem?_set, hij]

theorem depart_arrive_zero (p : Params) (tid : Nat) :
    rgri_depart p tid (rgri_arrive p tid (List.replicate p.G 0)) = List.replicate p.G 0 := by
  simp only [rgri_depart, rgri_arrive, List.set_set]
  by_cases h : rgri_get_thread_id p tid < p.G
  · rw [getD_set_self _ _ _ (by simpa using h), fetch_sub_fetch_add]
    have : (List.replicate p.G 0).getD (rgri_get_thread_id p tid) 0 = 0 := by
      simp [List.getD_eq_getElem?_getD, List.getElem?_replicate, h]
    rw [this, Nat.zero_mod]
    exact replicate_set_zero _ _
  · rw [List.set_eq_of_length_le (by simpa using Nat.le_of_not_lt h)]

theorem runSolo_step (p : Params) (tid n : Nat) (s s' : World) (pc pc' : PC) (e : Event)
    (h : tstep p tid s pc = some (s', pc', e)) :
    runSolo p tid (n + 1) s pc
      = ((runSolo p tid n s' pc').1, (runSolo p tid n s' pc').2.1,
          { pre := s, ev := e, post := s' } :: (runSolo p tid n s' pc').2.2) := by
  simp [runSolo, h]

theorem lock_solo (p : Params) (tid k : Nat) (s : World) (hm : s.l.mutexLock = false)
    (hb : s.l.writeBarrier = 0) (hz : groupsZero s) :
    runSolo p tid (p.G + 3 + k) s .lock_barrier
      = (s.setMutex true, .writeCS,
          [{ pre := s, ev := .loadBarrier 0, post := s },
           { pre := s, ev := .tatas_lock true, post := s.setMutex true }]
            ++ (List.range' 0 p.G).map (fun j =>
                ({ pre := s.setMutex true, ev := .loadGroup j 0, post := s.setMutex true } : Rec))
            ++ [{ pre := s.setMutex true, ev := .ret none, post := s.setMutex true }]) := by
  have h1 : p.G + 3 + k = (p.G + (k + 1)) + 1 + 1 := by omega
  have hz' : groupsZero (s.setMutex true) := hz
  have hw := runSolo_wait_zero p tid .lock _ hz' (k + 1) p.G 0 (by omega)
  have t1 : tstep p tid s .lock_barrier = some (s, .lock_tatas, .loadBarrier 0) := by
    simp [tstep, hb]
  have t2 : tstep p tid s .lock_tatas
      = some (s.setMutex true, waitFrom p .lock 0, .tatas_lock true) := by
    simp [tstep, tatas_try_lock_of_free _ hm, World.setMutex]
  have t3 : tstep p tid (s.setMutex true) (afterWait .lock)
      = some (s.setMutex true, .writeCS, .ret none) := rfl
  rw [h1, runSolo_step _ _ _ _ _ _ _ _ t1, runSolo_step _ _ _ _ _ _ _ _ t2, hw,
    runSolo_step _ _ _ _ _ _ _ _ t3, runSolo_rest _ _ _ _ .writeCS rfl]
  simp

theorem unlock_solo (p : Params) (tid k : Nat) (s : World) :
    runSolo p tid (2 + k) s .unlock_tatas
      = (s.setMutex false, .idle,
          [{ pre := s, ev := .tatas_unlock, post := s.setMutex false },
           { pre := s.setMutex false, ev := .ret none, post := s.setMutex false }]) := by
  have h1 : 2 + k = k + 1 + 1 := by omega
  have t1 : tstep p tid s .unlock_tatas = some (s.setMutex false, .ret .unlock, .tatas_unlock) :=
    rfl
  have t2 : tstep p tid (s.setMutex false) (.ret .unlock)
      = some (s.setMutex false, .idle, .ret none) := rfl
  rw [h1, runSolo_step _ _ _ _ _ _ _ _ t1, runSolo_step _ _ _ _ _ _ _ _ t2,
    runSolo_rest _ _ _ _ .idle rfl]

theorem rlock_solo (p : Params) (tid k : Nat) :
    runSolo p tid (3 + k) (zeroWorld p) (.rlock_arrive false 0)
      = (arrivedWorld p tid, .readCS,
          [{ pre := zeroWorld p, ev := .rgri_arrive (rgri_get_thread_id p tid),
             post := arrivedWorld p tid },
           { pre := arrivedWorld p tid, ev := .tatas_is_locked false, post := arrivedWorld p tid },
           { pre := arrivedWorld p tid, ev := .ret none, post := arrivedWorld p tid }]) := by
  have h1 : 3 + k = k + 1 + 1 + 1 := by omega
  have t1 : tstep p tid (zeroWorld p) (.rlock_arrive false 0)
      = some (arrivedWorld p tid, .rlock_check false 0,
          .rgri_arrive (rgri_get_thread_id p tid)) := rfl
  have t2 : tstep p tid (arrivedWorld p tid) (.rlock_check false 0)
      = some (arrivedWorld p tid, .ret .rlock, .tatas_is_locked false) := rfl
  have t3 : tstep p tid (arrivedWorld p tid) (.ret .rlock)
      = some (arrivedWorld p tid, .readCS, .ret none) := rfl
  rw [h1, runSolo_step _ _ _ _ _ _ _ _ t1, runSolo_step _ _ _ _ _ _ _ _ t2,
    runSolo_step _ _ _ _ _ _ _ _ t3, runSolo_rest _ _ _ _ .readCS rfl]

theorem runlock_solo (p : Params) (tid k : Nat) :
    runSolo p tid (2 + k) (arrivedWorld p tid) .runlock_depart
      = (zeroWorld p, .idle,
          [{ pre := arrivedWorld p tid, ev := .rgri_depart (rgri_get_thread_id p tid),
             post := zeroWorld p },
           { pre := zeroWorld p, ev := .ret none, post := zeroWorld p }]) := by
  have h1 : 2 + k = k + 1 + 1 := by omega
  have t1 : tstep p tid (arrivedWorld p tid) .runlock_depart
      = some (zeroWorld p, .ret .runlock, .rgri_depart (rgri_get_thread_id p tid)) := by
    simp [tstep, arrivedWorld, zeroWorld, depart_arrive_zero p tid]
  have t2 : tstep p tid (zeroWorld p) (.ret .runlock)
      = some (zeroWorld p, .idle, .ret none) := rfl
  rw [h1, runSolo_step _ _ _ _ _ _ _ _ t1, runSolo_step _ _ _ _ _ _ _ _ t2,
    runSolo_rest _ _ _ _ .idle rfl]

theorem unlock_held (p : Params) : (heldWorld p).setMutex false = zeroWorld p := rfl

theorem lock_zero (p : Params) : (zeroWorld p).setMutex true = heldWorld p := rfl

/-! ## C8: the single-threaded round trip -/

/-- C8: from the zero-initialised lock and for every thread id, `mrqd_lock`
returns within `G + 3` steps without a yield, having taken the mutex and
loaded every group once, and `mrqd_unlock` then returns the lock to the zero
state; `mrqd_rlock` returns after one iteration (one arrive, one look at the
mutex, no depart, no yield, the barrier untouched) and `mrqd_runlock` then
returns the lock to the zero state; so `lock; unlock; rlock; runlock; lock;
unlock` passes through the zero state, where `mrqd_is_locked` is false and all
counters are zero, after each pair. -/
theorem single_thread_round_trip (p : Params) (tid : Nat) :
    callSoloEvents p tid (p.G + 3) .mrqd_lock (zeroWorld p) .idle
        = some (heldWorld p, .writeCS,
            [Event.loadBarrier 0, Event.tatas_lock true]
              ++ (List.range p.G).map (fun i => Event.loadGroup i 0) ++ [Event.ret none])
    ∧ Event.thread_yield ∉ ([Event.loadBarrier 0, Event.tatas_lock true]
              ++ (List.range p.G).map (fun i => Event.loadGroup i 0) ++ [Event.ret none])
    ∧ callSoloEvents p tid 2 .mrqd_unlock (heldWorld p) .writeCS
        = some (zeroWorld p, .idle, [Event.tatas_unlock, Event.ret none])
    ∧ callSoloEvents p tid 3 .mrqd_rlock (zeroWorld p) .idle
        = some (arrivedWorld p tid, .readCS,
            [Event.rgri_arrive (rgri_get_thread_id p tid), Event.tatas_is_locked false,
              Event.ret none])
    ∧ (arrivedWorld p tid).l.writeBarrier = 0
    ∧ callSoloEvents p tid 2 .mrqd_runlock (arrivedWorld p tid) .readCS
        = some (zeroWorld p, .idle,
            [Event.rgri_depart (rgri_get_thread_id p tid), Event.ret none])
    ∧ callsSolo p tid (p.G + 3) [.mrqd_lock, .mrqd_unlock] (zeroWorld p) .idle
        = some (zeroWorld p, .idle)
    ∧ callsSolo p tid (p.G + 3) [.mrqd_rlock, .mrqd_runlock] (zeroWorld p) .idle
        = some (zeroWorld p, .idle)
    ∧ callsSolo p tid (p.G + 3)
          [.mrqd_lock, .mrqd_unlock, .mrqd_rlock, .mrqd_runlock] (zeroWorld p) .idle
        = some (zeroWorld p, .idle)
    ∧ callsSolo p tid (p.G + 3)
          [.mrqd_lock, .mrqd_unlock, .mrqd_rlock, .mrqd_runlock, .mrqd_lock, .mrqd_unlock]
          (zeroWorld p) .idle
        = some (zeroWorld p, .idle)
    ∧ mrqd_is_locked (zeroWorld p) = false
    ∧ (zeroWorld p).l.writeBarrier = 0
    ∧ (zeroWorld p).l.readIndicator = List.replicate p.G 0 := by
  have hl := lock_solo p tid 0 (zeroWorld p) rfl rfl (groupsZero_zeroWorld p)
  have hu0 := unlock_solo p tid 0 (heldWorld p)
  have hu := unlock_solo p tid (p.G + 1) (heldWorld p)
  rw [show 2 + (p.G + 1) = p.G + 3 by omega] at hu
  have hr0 := rlock_solo p tid 0
  have hr := rlock_solo p tid p.G
  rw [show 3 + p.G = p.G + 3 by omega] at hr
  have hn0 := runlock_solo p tid 0
  have hn := runlock_solo p tid (p.G + 1)
  rw [show 2 + (p.G + 1) = p.G + 3 by omega] at hn
  simp only [Nat.add_zero, lock_zero, unlock_held] at hl hu0 hu hr0 hn0
  refine ⟨?_, ?_, ?_, ?_, ?_, ?_, ?_, ?_, ?_, ?_, ?_, ?_, ?_⟩
  · simp [callSoloEvents, callSolo, enter, hl, events, List.range_eq_range', Function.comp_def]
  · simp
  · simp [callSoloEvents, callSolo, enter, hu0, events]
  · simp [callSoloEvents, callSolo, enter, hr0, events]
  · simp [arrivedWorld, zeroWorld]
  · simp [callSoloEvents, callSolo, enter, hn0, events]
  · simp [callsSolo, callSolo, enter, hl, hu, PC.atRest]
  · simp [callsSolo, callSolo, enter, hr, hn, PC.atRest]
  · simp [callsSolo, callSolo, enter, hl, hu, hr, hn, PC.atRest]
  · simp [callsSolo, callSolo, enter, hl, hu, hr, hn, PC.atRest]
  · simp [mrqd_is_locked, tatas_is_locked, zeroWorld]
  · simp [zeroWorld]
  · simp [zeroWorld]

/-! ## Executions against observed memory -/

theorem exec_nil (p : Params) (tid : Nat) (pc : PC) : exec p tid pc [] = ([], pc) := by
  cases pc <;> rfl

theorem exec_cons_some (p : Params) (tid : Nat) (pc pc' : PC) (s s' : World) (e : Event)
    (obs : List World) (h : tstep p tid s pc = some (s', pc', e)) :
    exec p tid pc (s :: obs)
      = ({ pre := s, ev := e, post := s' } :: (exec p tid pc' obs).1, (exec p tid pc' obs).2) := by
  simp [exec, h]

theorem exec_cons_none (p : Params) (tid : Nat) (pc : PC) (s : World)
    (obs : List World) (h : tstep p tid s pc = none) :
    exec p tid pc (s :: obs) = ([], pc) := by
  simp [exec, h]

theorem holder_waitFrom (p : Params) (c : Caller) (i : Nat) : (waitFrom p c i).holder = true := by
  unfold waitFrom
  split
  · rfl
  · cases c <;> rfl

theorem class_waitFrom (p : Params) (c : Caller) (i : Nat) :
    (waitFrom p c i).holder = true ∧ (waitFrom p c i).counted = false
    ∧ (waitFrom p c i).committed = false ∧ (waitFrom p c i).raised = false
    ∧ (waitFrom p c i).progress p = if i < p.G then i else p.G := by
  unfold waitFrom
  split
  · exact ⟨rfl, rfl, rfl, rfl, rfl⟩
  · cases c <;> exact ⟨rfl, rfl, rfl, rfl, rfl⟩

theorem class_rest (p : Params) (r : Ret) :
    r.rest.holder = (PC.ret r).holder ∧ r.rest.counted = (PC.ret r).counted
    ∧ r.rest.committed = (PC.ret r).committed ∧ r.rest.raised = (PC.ret r).raised
    ∧ r.rest.progress p = (PC.ret r).progress p := by
  cases r with
  | try_lock b => cases b <;> exact ⟨rfl, rfl, rfl, rfl, rfl⟩
  | _ => exact ⟨rfl, rfl, rfl, rfl, rfl⟩

theorem enter_class (p : Params) (op : Op) (pc pc' : PC) (h : enter op pc = some pc') :
    pc'.holder = pc.holder ∧ pc'.progress p = pc.progress p ∧ pc'.counted = pc.counted
    ∧ pc'.committed = pc.committed ∧ pc'.raised = pc.raised := by
  cases op <;> cases pc <;> simp only [enter, reduceCtorEq, Option.some.injEq] at h <;>
    subst h <;> refine ⟨rfl, rfl, rfl, rfl, rfl⟩

theorem mutex_step (p : Params) (tid : Nat) (s s' : World) (pc pc' : PC) (e : Event)
    (h : tstep p tid s pc = some (s', pc', e)) :
    (s'.l.mutexLock = s.l.mutexLock ∧ pc'.holder = pc.holder)
    ∨ (s.l.mutexLock = false ∧ s'.l.mutexLock = true ∧ pc.holder = false ∧ pc'.holder = true)
    ∨ (s'.l.mutexLock = false ∧ pc.holder = true ∧ pc'.holder = false) := by
  cases pc <;> simp only [tstep, reduceCtorEq] at h <;>
    (try split_ifs at h with hc) <;>
    simp only [Option.some.injEq, Prod.mk.injEq] at h <;>
    obtain ⟨rfl, rfl, -⟩ := h <;>
    first
    | exact Or.inl ⟨rfl, rfl⟩
    | exact Or.inl ⟨rfl, (class_rest p _).1⟩
    | exact Or.inl ⟨rfl, (class_waitFrom p _ _).1⟩
    | exact Or.inl ⟨by rw [tatas_try_lock_fst_of_fail _ hc], rfl⟩
    | exact Or.inr (Or.inl ⟨(tatas_try_lock_fst_of_ok _ hc).1,
        by rw [(tatas_try_lock_fst_of_ok _ hc).2], rfl, (class_waitFrom p _ _).1⟩)
    | exact Or.inr (Or.inl ⟨(tatas_try_lock_fst_of_ok _ hc).1,
        by rw [(tatas_try_lock_fst_of_ok _ hc).2], rfl, rfl⟩)
    | exact Or.inr (Or.inr ⟨rfl, rfl, rfl⟩)

theorem groups_step (p : Params) (tid : Nat) (s s' : World) (pc pc' : PC) (e : Event)
    (h : tstep p tid s pc = some (s', pc', e)) :
    (s'.l.readIndicator = s.l.readIndicator ∧ pc'.counted = pc.counted)
    ∨ (s'.l.readIndicator = rgri_arrive p tid s.l.readIndicator
        ∧ pc.counted = false ∧ pc'.counted = true)
    ∨ (s'.l.readIndicator = rgri_depart p tid s.l.readIndicator
        ∧ pc.counted = true ∧ pc'.counted = false) := by
  cases pc <;> simp only [tstep, reduceCtorEq] at h <;>
    (try split_ifs at h with hc) <;>
    simp only [Option.some.injEq, Prod.mk.injEq] at h <;>
    obtain ⟨rfl, rfl, -⟩ := h <;>
    first
    | exact Or.inl ⟨rfl, rfl⟩
    | exact Or.inl ⟨rfl, (class_rest p _).2.1⟩
    | exact Or.inl ⟨rfl, (class_waitFrom p _ _).2.1⟩
    | exact Or.inl ⟨(tatas_try_lock_fst_fields _).1, rfl⟩
    | exact Or.inl ⟨(tatas_try_lock_fst_fields _).1, (class_waitFrom p _ _).2.1⟩
    | exact Or.inr (Or.inl ⟨rfl, rfl, rfl⟩)
    | exact Or.inr (Or.inr ⟨rfl, rfl, rfl⟩)

theorem barrier_step (p : Params) (tid : Nat) (s s' : World) (pc pc' : PC) (e : Event)
    (h : tstep p tid s pc = some (s', pc', e)) :
    (s'.l.writeBarrier = s.l.writeBarrier ∧ pc'.raised = pc.raised)
    ∨ (s'.l.writeBarrier = fetch_add p.w s.l.writeBarrier
        ∧ pc.raised = false ∧ pc'.raised = true)
    ∨ (s'.l.writeBarrier = fetch_sub p.w s.l.writeBarrier
        ∧ pc.raised = true ∧ pc'.raised = false) := by
  cases pc <;> simp only [tstep, reduceCtorEq] at h <;>
    (try split_ifs at h) <;>
    simp only [Option.some.injEq, Prod.mk.injEq] at h <;>
    obtain ⟨rfl, rfl, -⟩ := h <;>
    first
    | exact Or.inl ⟨rfl, rfl⟩
    | exact Or.inl ⟨rfl, (class_rest p _).2.2.2.1⟩
    | exact Or.inl ⟨rfl, (class_waitFrom p _ _).2.2.2.1⟩
    | exact Or.inl ⟨(tatas_try_lock_fst_fields _).2.1, rfl⟩
    | exact Or.inl ⟨(tatas_try_lock_fst_fields _).2.1, (class_waitFrom p _ _).2.2.2.1⟩
    | exact Or.inr (Or.inl ⟨rfl, rfl, rfl⟩)
    | exact Or.inr (Or.inr ⟨rfl, rfl, rfl⟩)
    | exact Or.inl ⟨rfl, by simp_all [PC.raised]⟩

theorem holder_not_committed (pc : PC) (h : pc.holder = true) : pc.committed = false := by
  cases pc with
  | ret r => cases r <;> first | rfl | (simp [PC.holder] at h)
  | _ => first | rfl | (simp [PC.holder] at h)

theorem committed_counted (pc : PC) (h : pc.committed = true) : pc.counted = true := by
  cases pc with
  | ret r => cases r <;> first | rfl | (simp [PC.committed] at h)
  | _ => first | rfl | (simp [PC.committed] at h)

theorem holder_step (p : Params) (hG : 1 ≤ p.G) (tid : Nat) (s s' : World) (pc pc' : PC)
    (e : Event) (h : tstep p tid s pc = some (s', pc', e)) (hh : pc'.holder = true) :
    (pc.holder = true ∧ pc'.progress p = pc.progress p)
    ∨ pc'.progress p = 0
    ∨ (pc.holder = true ∧ s.l.readIndicator.getD (pc.progress p) 0 = 0
        ∧ pc'.progress p ≤ pc.progress p + 1) := by
  have hw0 : ∀ c, (waitFrom p c 0).progress p = 0 := by
    intro c
    rw [(class_waitFrom p c 0).2.2.2.2]
    simp [show 0 < p.G by omega]
  cases pc <;> simp only [tstep, reduceCtorEq] at h <;>
    (try split_ifs at h with hc) <;>
    simp only [Option.some.injEq, Prod.mk.injEq] at h <;>
    obtain ⟨rfl, rfl, -⟩ := h <;>
    first
    | exact Or.inl ⟨rfl, rfl⟩
    | exact Or.inr (Or.inl rfl)
    | exact Or.inr (Or.inl (hw0 _))
    | exact Or.inl ⟨(class_rest p _).1 ▸ hh, (class_rest p _).2.2.2.2⟩
    | (refine Or.inr (Or.inr ⟨rfl, ?_, ?_⟩)
       · simpa [PC.progress] using hc
       · rw [(class_waitFrom p _ _).2.2.2.2]
         simp only [PC.progress]
         split <;> omega)

theorem committed_step (p : Params) (tid : Nat) (s s' : World) (pc pc' : PC)
    (e : Event) (h : tstep p tid s pc = some (s', pc', e)) (hc' : pc'.committed = true) :
    pc.committed = true ∨ s.l.mutexLock = false := by
  cases pc <;> simp only [tstep, reduceCtorEq] at h <;>
    (try split_ifs at h with hc) <;>
    simp only [Option.some.injEq, Prod.mk.injEq] at h <;>
    obtain ⟨rfl, rfl, -⟩ := h <;>
    first
    | exact Or.inl rfl
    | exact Or.inl ((class_rest p _).2.2.1 ▸ hc')
    | exact Or.inr (by simpa [tatas_is_locked] using hc)
    | (rw [(class_waitFrom p _ _).2.2.1] at hc'; exact absurd hc' (by decide))
    | (simp [PC.committed] at hc')

theorem countP_set_of_getElem? (q : Thread → Bool) (l : List Thread) (i : Nat) (t t' : Thread)
    (hti : l[i]? = some t) :
    (l.set i t').countP q + (if q t = true then 1 else 0)
      = l.countP q + (if q t' = true then 1 else 0) := by
  obtain ⟨hlt, hget⟩ := List.getElem?_eq_some_iff.mp hti
  rw [List.countP_set q l i t' hlt, hget]
  have hmem : t ∈ l := hget ▸ List.getElem_mem hlt
  by_cases hq : q t = true
  · have hpos : 0 < l.countP q := List.countP_pos_iff.mpr ⟨t, hmem, hq⟩
    rw [if_pos hq]
    omega
  · rw [if_neg hq]
    omega

theorem mem_of_getElem? (l : List Thread) (i : Nat) (t : Thread) (hti : l[i]? = some t) :
    t ∈ l := by
  obtain ⟨hlt, hget⟩ := List.getElem?_eq_some_iff.mp hti
  exact hget ▸ List.getElem_mem hlt

theorem getD_rgri_arrive (p : Params) (tid : Nat) (gs : List Nat) (g : Nat)
    (hlt : rgri_get_thread_id p tid < gs.length) :
    (rgri_arrive p tid gs).getD g 0
      = if rgri_get_thread_id p tid = g then fetch_add p.w (gs.getD g 0) else gs.getD g 0 := by
  unfold rgri_arrive
  by_cases hg : rgri_get_thread_id p tid = g
  · subst hg
    simp only [if_true]
    exact getD_set_self _ _ _ hlt
  · simp only [hg, if_false]
    exact getD_set_other _ _ _ _ hg

theorem getD_rgri_depart (p : Params) (tid : Nat) (gs : List Nat) (g : Nat)
    (hlt : rgri_get_thread_id p tid < gs.length) :
    (rgri_depart p tid gs).getD g 0
      = if rgri_get_thread_id p tid = g then fetch_sub p.w (gs.getD g 0) else gs.getD g 0 := by
  unfold rgri_depart
  by_cases hg : rgri_get_thread_id p tid = g
  · subst hg
    simp only [if_true]
    exact getD_set_self _ _ _ hlt
  · simp only [hg, if_false]
    exact getD_set_other _ _ _ _ hg

/-- A thread moving between control points of the same class, the world
unchanged in mutex, groups and barrier, keeps the invariant. -/
theorem Inv_of_same_class (p : Params) (s : Sys) (w' : World) (i : Nat) (t : Thread) (pc' : PC)
    (hinv : Inv p s) (hti : s.threads[i]? = some t)
    (hm : w'.l.mutexLock = s.world.l.mutexLock)
    (hg : w'.l.readIndicator = s.world.l.readIndicator)
    (hb : w'.l.writeBarrier = s.world.l.writeBarrier)
    (hc : pc'.holder = t.pc.holder ∧ pc'.progress p = t.pc.progress p
      ∧ pc'.counted = t.pc.counted ∧ pc'.committed = t.pc.committed ∧ pc'.raised = t.pc.raised) :
    Inv p { world := w', threads := s.threads.set i { t with pc := pc' } } := by
  obtain ⟨h1, h2, h3, h4, h5⟩ := hc
  have hmem := mem_of_getElem? _ _ _ hti
  refine ⟨?_, ?_, ?_, ?_, ?_⟩
  · simpa [hg] using hinv.len
  · have := countP_set_of_getElem? (fun t => t.pc.holder) s.threads i t { t with pc := pc' } hti
    simp only [h1] at this
    simp only [hm, ← hinv.mutex]
    omega
  · intro g
    have := countP_set_of_getElem? (inGroup p g) s.threads i t { t with pc := pc' } hti
    simp only [inGroup, h3] at this
    simp only [hg, hinv.groups g]
    omega
  · have := countP_set_of_getElem? (fun t => t.pc.raised) s.threads i t { t with pc := pc' } hti
    simp only [h5] at this
    simp only [hb, hinv.barrier]
    omega
  · intro x hx y hy hxh hyc
    simp only at hx hy
    rcases List.mem_or_eq_of_mem_set hx with hx | rfl <;>
      rcases List.mem_or_eq_of_mem_set hy with hy | rfl
    · exact hinv.excl x hx y hy hxh hyc
    · exact hinv.excl x hx t hmem hxh (h4 ▸ hyc)
    · have := hinv.excl t hmem y hy (h1 ▸ hxh) hyc
      simpa [h2] using this
    · have := holder_not_committed _ hxh
      rw [this] at hyc
      exact absurd hyc (by decide)

theorem countP_lt_of_not (q : Thread → Bool) (l : List Thread) (t : Thread) (hmem : t ∈ l)
    (hq : q t = false) : l.countP q < l.length := by
  induction l with
  | nil => simp at hmem
  | cons a l ih =>
    simp only [List.mem_cons] at hmem
    by_cases ha : q a = true
    · rcases hmem with rfl | hmem
      · simp [hq] at ha
      · have := ih hmem
        simp only [List.countP_cons, ha, if_true, List.length_cons]
        omega
    · have := List.countP_le_length q (l := l)
      simp only [List.countP_cons, ha, List.length_cons]
      simp only [Bool.false_eq_true, if_false]
      omega

theorem Inv_tstep (p : Params) (hG : 1 ≤ p.G) (s : Sys) (hN : s.threads.length < 2 ^ p.w)
    (hinv : Inv p s) (i : Nat) (t : Thread) (hti : s.threads[i]? = some t)
    (w' : World) (pc' : PC) (e : Event) (hst : tstep p t.tid s.world t.pc = some (w', pc', e)) :
    Inv p { world := w', threads := s.threads.set i { t with pc := pc' } } := by
  have hmem := mem_of_getElem? _ _ _ hti
  have hgl : rgri_get_thread_id p t.tid < s.world.l.readIndicator.length := by
    rw [hinv.len]
    exact rgri_get_thread_id_lt p hG _
  refine ⟨?_, ?_, ?_, ?_, ?_⟩
  · rcases groups_step p _ _ _ _ _ _ hst with ⟨hg, -⟩ | ⟨hg, -⟩ | ⟨hg, -⟩
    · simpa [hg] using hinv.len
    · simpa [hg, rgri_arrive] using hinv.len
    · simpa [hg, rgri_depart] using hinv.len
  · have hc := countP_set_of_getElem? (fun t => t.pc.holder) s.threads i t { t with pc := pc' } hti
    have hm := hinv.mutex
    rcases mutex_step p _ _ _ _ _ _ hst with ⟨h1, h2⟩ | ⟨h1, h2, h3, h4⟩ | ⟨h1, h2, h3⟩
    · simp only [h2] at hc
      simp only [h1, ← hm]
      omega
    · simp only [h3, h4, h1, Bool.false_eq_true, if_true, if_false] at hc hm
      simp only [h2, if_true]
      omega
    · have hle : s.threads.countP (fun t => t.pc.holder) ≤ 1 := by
        rw [hm]
        split <;> omega
      have hpos : 0 < s.threads.countP (fun t => t.pc.holder) :=
        List.countP_pos_iff.mpr ⟨t, hmem, h2⟩
      simp only [h2, h3, Bool.false_eq_true, if_true, if_false] at hc
      simp only [h1, Bool.false_eq_true, if_false]
      omega
  · intro g
    have hc := countP_set_of_getElem? (inGroup p g) s.threads i t { t with pc := pc' } hti
    have hgi := hinv.groups g
    have hle := List.countP_le_length (inGroup p g) (l := s.threads)
    rcases groups_step p _ _ _ _ _ _ hst with ⟨h1, h2⟩ | ⟨h1, h2, h3⟩ | ⟨h1, h2, h3⟩
    · simp only [inGroup, h2] at hc
      simp only [h1, hgi]
      omega
    · simp only [h1, getD_rgri_arrive p _ _ g hgl]
      have hnot : inGroup p g t = false := by simp [inGroup, h2]
      have hlt := countP_lt_of_not (inGroup p g) s.threads t hmem hnot
      by_cases hg : rgri_get_thread_id p t.tid = g
      · have hnew : inGroup p g { t with pc := pc' } = true := by simp [inGroup, h3, hg]
        rw [hnot, hnew] at hc
        rw [if_pos hg, hgi, fetch_add_of_lt _ _ (by omega)]
        simp at hc
        omega
      · have hnew : inGroup p g { t with pc := pc' } = false := by simp [inGroup, hg]
        rw [hnot, hnew] at hc
        rw [if_neg hg, hgi]
        simp at hc
        omega
    · simp only [h1, getD_rgri_depart p _ _ g hgl]
      have hnew : inGroup p g { t with pc := pc' } = false := by simp [inGroup, h3]
      by_cases hg : rgri_get_thread_id p t.tid = g
      · have hold : inGroup p g t = true := by simp [inGroup, h2, hg]
        have hpos : 0 < s.threads.countP (inGroup p g) :=
          List.countP_pos_iff.mpr ⟨t, hmem, hold⟩
        rw [hold, hnew] at hc
        rw [if_pos hg, hgi, fetch_sub_of_pos _ _ hpos (by omega)]
        simp at hc
        omega
      · have hold : inGroup p g t = false := by simp [inGroup, hg]
        rw [hold, hnew] at hc
        rw [if_neg hg, hgi]
        simp at hc
        omega
  · have hc := countP_set_of_getElem? (fun t => t.pc.raised) s.threads i t { t with pc := pc' } hti
    have hb := hinv.barrier
    have hle := List.countP_le_length (fun t : Thread => t.pc.raised) (l := s.threads)
    rcases barrier_step p _ _ _ _ _ _ hst with ⟨h1, h2⟩ | ⟨h1, h2, h3⟩ | ⟨h1, h2, h3⟩
    · simp only [h2] at hc
      simp only [h1, hb]
      omega
    · have hlt := countP_lt_of_not (fun t => t.pc.raised) s.threads t hmem h2
      simp only [h2, h3] at hc
      simp only [h1, hb]
      rw [fetch_add_of_lt _ _ (by omega)]
      simp at hc
      omega
    · have hpos : 0 < s.threads.countP (fun t => t.pc.raised) :=
        List.countP_pos_iff.mpr ⟨t, hmem, h2⟩
      simp only [h2, h3] at hc
      simp only [h1, hb]
      rw [fetch_sub_of_pos _ _ hpos (by omega)]
      simp at hc
      omega
  · intro x hx y hy hxh hyc
    rcases List.mem_or_eq_of_mem_set hx with hx | rfl <;>
      rcases List.mem_or_eq_of_mem_set hy with hy | rfl
    · exact hinv.excl x hx y hy hxh hyc
    · rcases committed_step p _ _ _ _ _ _ hst hyc with hold | hfree
      · exact hinv.excl x hx t hmem hxh hold
      · have hm := hinv.mutex
        rw [hfree] at hm
        have hpos : 0 < s.threads.countP (fun t => t.pc.holder) :=
          List.countP_pos_iff.mpr ⟨x, hx, hxh⟩
        simp at hm
        have := hm x hx
        simp [hxh] at this
    · rcases holder_step p hG _ _ _ _ _ _ hst hxh with ⟨h1, h2⟩ | h0 | ⟨h1, h2, h3⟩
      · have := hinv.excl t hmem y hy h1 hyc
        simpa [h2] using this
      · simp [h0]
      · have hold := hinv.excl t hmem y hy h1 hyc
        have hne : rgri_get_thread_id p y.tid ≠ t.pc.progress p := by
          intro heq
          have hgi := hinv.groups (t.pc.progress p)
          rw [h2] at hgi
          have hin : inGroup p (t.pc.progress p) y = true := by
            simp [inGroup, committed_counted _ hyc, heq]
          have hpos : 0 < s.threads.countP (inGroup p (t.pc.progress p)) :=
            List.countP_pos_iff.mpr ⟨y, hy, hin⟩
          omega
        show pc'.progress p ≤ _
        omega
    · have := holder_not_committed _ hxh
      rw [this] at hyc
      exact absurd hyc (by decide)

theorem Inv_sysStep (p : Params) (hG : 1 ≤ p.G) (s s' : Sys) (hN : s.threads.length < 2 ^ p.w)
    (hinv : Inv p s) (i : Nat) (a : Action) (h : sysStep p i a s = some s') :
    Inv p s' ∧ s'.threads.length = s.threads.length := by
  unfold sysStep at h
  cases hti : s.threads[i]? with
  | none => simp [hti] at h
  | some t =>
    simp only [hti] at h
    cases a with
    | call op =>
      simp only at h
      cases hen : enter op t.pc with
      | none => simp [hen] at h
      | some pc' =>
        simp only [hen, Option.some.injEq] at h
        subst h
        exact ⟨Inv_of_same_class p s s.world i t pc' hinv hti rfl rfl rfl (enter_class p op _ _ hen),
          by simp⟩
    | step =>
      simp only at h
      cases hst : tstep p t.tid s.world t.pc with
      | none => simp [hst] at h
      | some x =>
        obtain ⟨w', pc', e⟩ := x
        simp only [hst, Option.some.injEq] at h
        subst h
        exact ⟨Inv_tstep p hG s hN hinv i t hti w' pc' e hst, by simp⟩

theorem countP_init (q : Thread → Bool) (tids : List Nat)
    (hq : ∀ tid, q { tid := tid, pc := .idle } = false) :
    (tids.map fun t => ({ tid := t, pc := .idle } : Thread)).countP q = 0 := by
  rw [List.countP_eq_zero]
  intro x hx
  simp only [List.mem_map] at hx
  obtain ⟨a, -, rfl⟩ := hx
  simp [hq a]

theorem Inv_init (p : Params) (tids : List Nat) : Inv p (initSys p tids) := by
  refine ⟨?_, ?_, ?_, ?_, ?_⟩
  · simp [initSys, zeroWorld]
  · simp only [initSys]
    rw [countP_init _ _ (fun _ => rfl)]
    rfl
  · intro g
    have h0 := groupsZero_zeroWorld p g
    simp only [initSys]
    rw [h0, countP_init _ _ (fun _ => rfl)]
  · simp only [initSys]
    rw [countP_init _ _ (fun _ => rfl)]
    rfl
  · intro x hx
    simp only [initSys, List.mem_map] at hx
    obtain ⟨a, -, rfl⟩ := hx
    intro r _ hh
    simp [PC.holder] at hh

theorem Inv_reachable (p : Params) (hG : 1 ≤ p.G) (tids : List Nat) (hN : tids.length < 2 ^ p.w)
    (s : Sys) (h : Reachable p tids s) : Inv p s ∧ s.threads.length = tids.length := by
  induction h with
  | init => exact ⟨Inv_init p tids, by simp [initSys]⟩
  | step i a _ hstep ih =>
    have := Inv_sysStep p hG _ _ (by omega) ih.1 i a hstep
    exact ⟨this.1, by omega⟩


theorem drained_holder (p : Params) (pc : PC) (h : pc.drained = true) :
    pc.holder = true ∧ pc.progress p = p.G := by
  cases pc with
  | ret r =>
    cases r with
    | try_lock b => cases b <;> first | exact ⟨rfl, rfl⟩ | (simp [PC.drained] at h)
    | _ => first | exact ⟨rfl, rfl⟩ | (simp [PC.drained] at h)
  | _ => first | exact ⟨rfl, rfl⟩ | (simp [PC.drained] at h)

theorem reachable_of_runSched (p : Params) (tids : List Nat) :
    ∀ (sched : List (Nat × Action)) (s s' : Sys), Reachable p tids s →
      runSched p sched s = some s' → Reachable p tids s' := by
  intro sched
  induction sched with
  | nil =>
    intro s s' hs h
    simp only [runSched, Option.some.injEq] at h
    exact h ▸ hs
  | cons x rest ih =>
    intro s s' hs h
    obtain ⟨i, a⟩ := x
    simp only [runSched] at h
    cases hst : sysStep p i a s with
    | none => simp [hst] at h
    | some s1 =>
      simp only [hst] at h
      exact ih s1 s' (Reachable.step i a hs hst) h

theorem sum_indicator_range (n h : Nat) :
    ((List.range n).map (fun g => if h = g then 1 else 0)).sum = if h < n then 1 else 0 := by
  induction n with
  | zero => simp
  | succ n ih =>
    rw [List.range_succ, List.map_append, List.sum_append, ih]
    by_cases h1 : h < n
    · have : h ≠ n := by omega
      simp [h1, this, show h < n + 1 by omega]
    · by_cases h2 : h = n
      · simp [h2]
      · simp [h1, h2, show ¬ h < n + 1 by omega]

theorem sum_inGroup (p : Params) (hG : 1 ≤ p.G) (l : List Thread) :
    ((List.range p.G).map (fun g => l.countP (inGroup p g))).sum
      = l.countP (fun t => t.pc.counted) := by
  induction l with
  | nil => simp
  | cons a l ih =>
    simp only [List.countP_cons]
    rw [List.sum_map_add, ih]
    congr 1
    have hlt := rgri_get_thread_id_lt p hG a.tid
    by_cases hc : a.pc.counted = true
    · have : (fun g => if inGroup p g a = true then 1 else 0)
          = (fun g => if rgri_get_thread_id p a.tid = g then 1 else 0) := by
        funext g
        simp [inGroup, hc]
      rw [this, sum_indicator_range]
      simp [hlt, hc]
    · have : (fun g => if inGroup p g a = true then 1 else 0) = (fun _ => 0) := by
        funext g
        simp [inGroup, hc]
      rw [this]
      simp [hc]

theorem list_eq_map_getD (l : List Nat) :
    l = (List.range l.length).map (fun g => l.getD g 0) := by
  apply List.ext_getElem
  · simp
  · intro i h1 h2
    simp [List.getD_eq_getElem?_getD, List.getElem?_eq_getElem h1]

theorem sum_groups (p : Params) (hG : 1 ≤ p.G) (s : Sys) (hinv : Inv p s) :
    s.world.l.readIndicator.sum = s.threads.countP (fun t => t.pc.counted) := by
  rw [list_eq_map_getD s.world.l.readIndicator, hinv.len, ← sum_inGroup p hG]
  congr 1
  apply List.map_congr_left
  intro g _
  exact hinv.groups g


/-! ## C1: reader-writer exclusion -/

/-- C1: in every state the interleaving reaches from the zero-initialised lock,
with at least one reader group and fewer threads than an `unsigned int` can
count, no thread is inside a read critical section (back from `mrqd_rlock`, its
`mrqd_runlock` not yet called) while a thread has taken the inner mutex,
completed `rgri_wait_all_readers_gone` and not yet released the mutex. -/
theorem reader_writer_exclusion (p : Params) (hG : 1 ≤ p.G) (tids : List Nat)
    (hN : tids.length < 2 ^ p.w) (s : Sys) (hs : Reachable p tids s) :
    ∀ t ∈ s.threads, ∀ r ∈ s.threads, t.pc.drained = true → r.pc = .readCS → False := by
  intro t ht r hr hd hrc
  have hinv := (Inv_reachable p hG tids hN s hs).1
  have h1 := drained_holder p t.pc hd
  have h2 := hinv.excl t ht r hr h1.1 (by rw [hrc]; rfl)
  have h3 := rgri_get_thread_id_lt p hG r.tid
  omega

/-- C1, at a concrete input: after the schedule `writerThenReader` thread 0 is
in its write section and no thread is in a read section. -/
theorem reader_writer_exclusion_witness :
    ∃ s, runSched defaultParams writerThenReader (initSys defaultParams [0, 11, 22]) = some s
      ∧ s.threads = [⟨0, .writeCS⟩, ⟨11, .rlock_depart false 0⟩, ⟨22, .idle⟩]
      ∧ ∀ t ∈ s.threads, ∀ r ∈ s.threads, t.pc.drained = true → r.pc = .readCS → False :=
  ⟨_, rfl, rfl,
    reader_writer_exclusion defaultParams (by decide) [0, 11, 22] (by decide) _
      (reachable_of_runSched defaultParams [0, 11, 22] writerThenReader _ _ Reachable.init rfl)⟩

/-! ## C9: sum consistency -/

/-- C9: in every state the interleaving reaches by correctly paired calls, with
at least one reader group and fewer threads than an `unsigned int` can count,
the sum of the reader groups is the number of threads that have performed
`rgri_arrive` and not yet the matching `rgri_depart`; each group holds the
number of such threads of the group; the group of such a thread is positive, so
its `rgri_depart` does not underflow; and when no thread is inside `mrqd_rlock`
or `mrqd_runlock` the sum is the number of threads inside a read section. -/
theorem sum_consistency (p : Params) (hG : 1 ≤ p.G) (tids : List Nat)
    (hN : tids.length < 2 ^ p.w) (s : Sys) (hs : Reachable p tids s) :
    s.world.l.readIndicator.sum = s.threads.countP (fun t => t.pc.counted)
    ∧ (∀ g, s.world.l.readIndicator.getD g 0 = s.threads.countP (inGroup p g))
    ∧ (∀ t ∈ s.threads, t.pc.counted = true →
        0 < s.world.l.readIndicator.getD (rgri_get_thread_id p t.tid) 0
        ∧ fetch_sub p.w (s.world.l.readIndicator.getD (rgri_get_thread_id p t.tid) 0)
            = s.world.l.readIndicator.getD (rgri_get_thread_id p t.tid) 0 - 1)
    ∧ ((∀ t ∈ s.threads, t.pc.inReaderCall = false) →
        s.world.l.readIndicator.sum = s.threads.countP (fun t => decide (t.pc = .readCS))) := by
  obtain ⟨hinv, hlen⟩ := Inv_reachable p hG tids hN s hs
  have hsum := sum_groups p hG s hinv
  refine ⟨hsum, hinv.groups, ?_, ?_⟩
  · intro t ht hc
    have hgi := hinv.groups (rgri_get_thread_id p t.tid)
    have hpos : 0 < s.threads.countP (inGroup p (rgri_get_thread_id p t.tid)) :=
      List.countP_pos_iff.mpr ⟨t, ht, by simp [inGroup, hc]⟩
    have hle := List.countP_le_length (inGroup p (rgri_get_thread_id p t.tid)) (l := s.threads)
    refine ⟨by omega, fetch_sub_of_pos _ _ (by omega) (by omega)⟩
  · intro hq
    rw [hsum]
    apply List.countP_congr
    intro t ht
    have := hq t ht
    cases hpc : t.pc with
    | ret r => cases r <;> simp_all [PC.counted, PC.inReaderCall]
    | _ => simp_all [PC.counted, PC.inReaderCall]

/-- C9, at a concrete input: after the schedule `twoReaders` threads 1 and 2 are
in their read sections, no thread is inside a call, and the groups sum to 2. -/
theorem sum_consistency_witness :
    ∃ s, runSched defaultParams twoReaders (initSys defaultParams [0, 11, 22]) = some s
      ∧ s.world.l.readIndicator = [0, 1, 1, 0]
      ∧ s.world.l.readIndicator.sum = s.threads.countP (fun t => decide (t.pc = .readCS)) :=
  ⟨_, rfl, rfl,
    (sum_consistency defaultParams (by decide) [0, 11, 22] (by decide) _
      (reachable_of_runSched defaultParams [0, 11, 22] twoReaders _ _ Reachable.init rfl)).2.2.2
      (by decide)⟩

/-! ## C3: delegation without contention -/

theorem setMutex_false_of_free (s : World) (hm : s.l.mutexLock = false) :
    s.setMutex false = s := by
  obtain ⟨⟨a, b, c, d⟩, r⟩ := s
  simp only at hm
  subst hm
  rfl

theorem delegate_solo (p : Params) (tid k : Nat) (m : Msg) (s : World)
    (hm : s.l.mutexLock = false) (hb : s.l.writeBarrier = 0) (hz : groupsZero s)
    (hq : s.l.queue = { closed := true, msgs := [] }) :
    runSolo p tid (p.G + 7 + k) s (.del_barrier m)
      = (callFn m s, .idle,
          [{ pre := s, ev := .loadBarrier 0, post := s },
           { pre := s, ev := .tatas_try_lock true, post := s.setMutex true },
           { pre := s.setMutex true, ev := .qdq_open,
             post := (s.setMutex true).setQueue { closed := false, msgs := [] } }]
            ++ (List.range' 0 p.G).map (fun j =>
                ({ pre := (s.setMutex true).setQueue { closed := false, msgs := [] },
                   ev := .loadGroup j 0,
                   post := (s.setMutex true).setQueue { closed := false, msgs := [] } } : Rec))
            ++ [{ pre := (s.setMutex true).setQueue { closed := false, msgs := [] },
                  ev := .funPtr m,
                  post := callFn m ((s.setMutex true).setQueue { closed := false, msgs := [] }) },
                { pre := callFn m ((s.setMutex true).setQueue { closed := false, msgs := [] }),
                  ev := .qdq_flush [], post := callFn m (s.setMutex true) },
                { pre := callFn m (s.setMutex true), ev := .tatas_unlock, post := callFn m s },
                { pre := callFn m s, ev := .ret none, post := callFn m s }]) := by
  have h1 : p.G + 7 + k = (p.G + (k + 4)) + 1 + 1 + 1 := by omega
  have h2 : k + 4 = k + 1 + 1 + 1 + 1 := by omega
  have hz' : groupsZero ((s.setMutex true).setQueue { closed := false, msgs := [] }) := hz
  have hw := runSolo_wait_zero p tid (.delegate m) _ hz' (k + 4) p.G 0 (by omega)
  have t1 : tstep p tid s (.del_barrier m) = some (s, .del_try m, .loadBarrier 0) := by
    simp [tstep, hb]
  have t2 : tstep p tid s (.del_try m)
      = some (s.setMutex true, .del_open m, .tatas_try_lock true) := by
    simp [tstep, tatas_try_lock_of_free _ hm, World.setMutex]
  have t3 : tstep p tid (s.setMutex true) (.del_open m)
      = some ((s.setMutex true).setQueue { closed := false, msgs := [] },
          waitFrom p (.delegate m) 0, .qdq_open) := by
    simp [tstep, qdq_open, World.setMutex, World.setQueue, hq]
  have t4 : tstep p tid ((s.setMutex true).setQueue { closed := false, msgs := [] })
        (afterWait (.delegate m))
      = some (callFn m ((s.setMutex true).setQueue { closed := false, msgs := [] }),
          .del_flush m, .funPtr m) := rfl
  have t5 : tstep p tid (callFn m ((s.setMutex true).setQueue { closed := false, msgs := [] }))
        (.del_flush m)
      = some (callFn m (s.setMutex true), .del_unlock m, .qdq_flush []) := by
    simp [tstep, qdq_flush, callFn, World.setMutex, World.setQueue, hq]
  have t6 : tstep p tid (callFn m (s.setMutex true)) (.del_unlock m)
      = some (callFn m s, .ret .delegate, .tatas_unlock) := by
    have h := setMutex_false_of_free s hm
    have h' : tstep p tid (callFn m (s.setMutex true)) (.del_unlock m)
        = some (callFn m (s.setMutex false), .ret .delegate, .tatas_unlock) := rfl
    rw [h', h]
  have t7 : tstep p tid (callFn m s) (.ret .delegate) = some (callFn m s, .idle, .ret none) := rfl
  rw [h1, runSolo_step _ _ _ _ _ _ _ _ t1, runSolo_step _ _ _ _ _ _ _ _ t2,
    runSolo_step _ _ _ _ _ _ _ _ t3, hw, h2, runSolo_step _ _ _ _ _ _ _ _ t4,
    runSolo_step _ _ _ _ _ _ _ _ t5, runSolo_step _ _ _ _ _ _ _ _ t6,
    runSolo_step _ _ _ _ _ _ _ _ t7, runSolo_rest _ _ _ _ .idle rfl]
  simp

/-- C3: from a world without contention (inner mutex free, barrier zero, all
groups zero, queue empty and closed) and for every message, `mrqd_delegate` run
alone returns within `G + 7` steps, and so does `mrqd_lock`, the call
`funPtr(messageSize, messageAddress)` and `mrqd_unlock`.  Both end in the same
world: the lock as it was (mutex unlocked, same counters, queue refusing every
message) and the call appended to the log.  The delegate performs exactly one
call, with the message supplied, in a world where the mutex is held and all
groups are zero, and its flush runs nothing; `mrqd_lock` returns in such a
world too, and neither it nor `mrqd_unlock` performs a call. -/
theorem delegate_equals_lock_fn_unlock (p : Params) (tid : Nat) (m : Msg) (s : World)
    (hm : s.l.mutexLock = false) (hb : s.l.writeBarrier = 0) (hz : groupsZero s)
    (hq : s.l.queue = { closed := true, msgs := [] }) :
    ∃ rsD rsL rsU,
      callSolo p tid (p.G + 7) (.mrqd_delegate m) s .idle = some (callFn m s, .idle, rsD)
      ∧ callSolo p tid (p.G + 3) .mrqd_lock s .idle = some (s.setMutex true, .writeCS, rsL)
      ∧ callSolo p tid 2 .mrqd_unlock (callFn m (s.setMutex true)) .writeCS
          = some (callFn m s, .idle, rsU)
      ∧ (events rsD).count (.funPtr m) = 1
      ∧ (∀ r ∈ rsD, ∀ m', r.ev = .funPtr m' →
          m' = m ∧ r.pre.l.mutexLock = true ∧ groupsZero r.pre ∧ r.post = callFn m r.pre)
      ∧ (∀ r ∈ rsD, ∀ ms, r.ev = .qdq_flush ms → ms = [])
      ∧ (∀ r ∈ rsL ++ rsU, ∀ m', r.ev ≠ .funPtr m')
      ∧ (s.setMutex true).l.mutexLock = true ∧ groupsZero (s.setMutex true)
      ∧ (callFn m s).l = s.l ∧ (callFn m s).ran = s.ran ++ [m]
      ∧ (∀ m', (qdq_enqueue p.Q (callFn m s).l.queue m').2 = false) := by
  have hd := delegate_solo p tid 0 m s hm hb hz hq
  have hl := lock_solo p tid 0 s hm hb hz
  have hu := unlock_solo p tid 0 (callFn m (s.setMutex true))
  have hfin : (callFn m (s.setMutex true)).setMutex false = callFn m s := by
    have h := setMutex_false_of_free s hm
    have h' : (callFn m (s.setMutex true)).setMutex false = callFn m (s.setMutex false) := rfl
    rw [h', h]
  rw [hfin] at hu
  simp only [Nat.add_zero] at hd hl hu
  refine ⟨_, _, _, congrArg some hd, congrArg some hl, congrArg some hu,
    ?_, ?_, ?_, ?_, rfl, hz, rfl, rfl, ?_⟩
  · simp [events, List.count_eq_zero, Function.comp_def]
  · intro r hr m' hev
    simp only [List.mem_append, List.mem_cons, List.mem_map, List.mem_singleton,
      List.not_mem_nil, or_false] at hr
    rcases hr with ((rfl | rfl | rfl) | ⟨j, -, rfl⟩) | rfl | rfl | rfl | rfl <;>
      simp only [reduceCtorEq, Event.funPtr.injEq] at hev
    exact ⟨hev.symm, rfl, hz, rfl⟩
  · intro r hr ms hev
    simp only [List.mem_append, List.mem_cons, List.mem_map, List.mem_singleton,
      List.not_mem_nil, or_false] at hr
    rcases hr with ((rfl | rfl | rfl) | ⟨j, -, rfl⟩) | rfl | rfl | rfl | rfl <;>
      simp only [reduceCtorEq, Event.qdq_flush.injEq] at hev
    exact hev.symm
  · intro r hr m' hev
    simp only [List.mem_append, List.mem_cons, List.mem_map, List.mem_singleton,
      List.not_mem_nil, or_false] at hr
    rcases hr with (((rfl | rfl) | ⟨j, -, rfl⟩) | rfl) | rfl | rfl <;>
      simp only [reduceCtorEq] at hev
  · intro m'
    simp [qdq_enqueue, callFn, hq]

/-- C3, at a concrete input: the zero-initialised lock with the default
parameters, thread 4242 and the message (1, 8, 64). -/
theorem delegate_equals_lock_fn_unlock_witness :
    ∃ rsD rsL rsU,
      callSolo defaultParams 4242 11 (.mrqd_delegate ⟨1, 8, 64⟩) (zeroWorld defaultParams) .idle
        = some (callFn ⟨1, 8, 64⟩ (zeroWorld defaultParams), .idle, rsD)
      ∧ callSolo defaultParams 4242 7 .mrqd_lock (zeroWorld defaultParams) .idle
        = some (heldWorld defaultParams, .writeCS, rsL)
      ∧ callSolo defaultParams 4242 2 .mrqd_unlock
          (callFn ⟨1, 8, 64⟩ (heldWorld defaultParams)) .writeCS
        = some (callFn ⟨1, 8, 64⟩ (zeroWorld defaultParams), .idle, rsU) := by
  obtain ⟨rsD, rsL, rsU, h1, h2, h3, -⟩ :=
    delegate_equals_lock_fn_unlock defaultParams 4242 ⟨1, 8, 64⟩ (zeroWorld defaultParams)
      rfl rfl (groupsZero_zeroWorld defaultParams) rfl
  exact ⟨rsD, rsL, rsU, h1, h2, h3⟩

/-! ## The write barrier inside `mrqd_rlock` -/

theorem tstep_barrierEffect (p : Params) (tid : Nat) (s s' : World) (pc pc' : PC) (e : Event)
    (h : tstep p tid s pc = some (s', pc', e)) :
    s'.l.writeBarrier = barrierEffect p.w e s.l.writeBarrier := by
  cases pc <;> simp only [tstep, reduceCtorEq] at h <;>
    (try split_ifs at h with hc) <;>
    simp only [Option.some.injEq, Prod.mk.injEq] at h <;>
    obtain ⟨rfl, -, rfl⟩ := h <;>
    first
    | rfl
    | exact (tatas_try_lock_fst_fields _).2.1

theorem class_rest_mayRaise (r : Ret) :
    r.rest.mayRaise = false ∧ r.rest.raised = false := by
  cases r with
  | try_lock b => cases b <;> exact ⟨rfl, rfl⟩
  | _ => exact ⟨rfl, rfl⟩

theorem class_waitFrom_mayRaise (p : Params) (c : Caller) (i : Nat) :
    (waitFrom p c i).mayRaise = false := by
  unfold waitFrom
  split
  · rfl
  · cases c <;> rfl

theorem barrierOp_step (p : Params) (tid : Nat) (s s' : World) (pc pc' : PC) (e : Event)
    (h : tstep p tid s pc = some (s', pc', e)) :
    (e = .raiseBarrier ∧ pc.mayRaise = true ∧ pc'.raised = true)
    ∨ (e = .lowerBarrier ∧ pc.raised = true ∧ pc'.raised = false ∧ pc'.mayRaise = false)
    ∨ (isBarrierOp e = false ∧ pc'.raised = pc.raised
        ∧ (pc'.mayRaise = pc.mayRaise ∨ pc'.mayRaise = false)) := by
  cases pc with
  | rlock_check b rp =>
    cases b <;> simp only [tstep] at h <;> split_ifs at h <;>
      simp only [Option.some.injEq, Prod.mk.injEq] at h <;>
      obtain ⟨-, rfl, rfl⟩ := h <;>
      first
      | exact Or.inr (Or.inr ⟨rfl, rfl, Or.inl rfl⟩)
      | exact Or.inr (Or.inr ⟨rfl, rfl, Or.inr rfl⟩)
      | (exfalso; simp_all)
  | rlock_yield b rp =>
    cases b <;> simp only [tstep] at h <;> split_ifs at h with hc <;>
      simp only [Option.some.injEq, Prod.mk.injEq] at h <;>
      obtain ⟨-, rfl, rfl⟩ := h <;>
      first
      | exact Or.inr (Or.inr ⟨rfl, rfl, Or.inl rfl⟩)
      | (exfalso; simp_all)
  | _ =>
    simp only [tstep, reduceCtorEq] at h <;>
    (try split_ifs at h) <;>
    simp only [Option.some.injEq, Prod.mk.injEq] at h <;>
    obtain ⟨-, rfl, rfl⟩ := h <;>
    first
    | exact Or.inr (Or.inr ⟨rfl, rfl, Or.inl rfl⟩)
    | exact Or.inr (Or.inr ⟨rfl, rfl, Or.inr rfl⟩)
    | exact Or.inr (Or.inr ⟨rfl, (class_waitFrom p _ _).2.2.2.1,
        Or.inl (class_waitFrom_mayRaise p _ _)⟩)
    | exact Or.inr (Or.inr ⟨rfl, (class_rest p _).2.2.2.1, Or.inr (class_rest_mayRaise _).1⟩)
    | exact Or.inl ⟨rfl, rfl, rfl⟩
    | exact Or.inr (Or.inl ⟨rfl, rfl, rfl, rfl⟩)

theorem atRest_not_raised (pc : PC) (h : pc.atRest = true) :
    pc.raised = false ∧ pc.mayRaise = false := by
  cases pc <;> first | exact ⟨rfl, rfl⟩ | (simp [PC.atRest] at h)

theorem mayRaise_not_raised (pc : PC) (h : pc.mayRaise = true) : pc.raised = false := by
  cases pc <;> simp_all [PC.mayRaise, PC.raised]

theorem exec_barrierOps (p : Params) (tid : Nat) : ∀ (obs : List World) (pc : PC),
    (pc.raised = false → pc.mayRaise = false →
      barrierOps (events (exec p tid pc obs).1) = [])
    ∧ (pc.raised = true →
        (barrierOps (events (exec p tid pc obs).1) = []
          ∨ barrierOps (events (exec p tid pc obs).1) = [.lowerBarrier])
        ∧ ((exec p tid pc obs).2.atRest = true →
            barrierOps (events (exec p tid pc obs).1) = [.lowerBarrier]))
    ∧ (pc.mayRaise = true →
        (barrierOps (events (exec p tid pc obs).1) = []
          ∨ barrierOps (events (exec p tid pc obs).1) = [.raiseBarrier]
          ∨ barrierOps (events (exec p tid pc obs).1) = [.raiseBarrier, .lowerBarrier])
        ∧ ((exec p tid pc obs).2.atRest = true →
            barrierOps (events (exec p tid pc obs).1) = []
            ∨ barrierOps (events (exec p tid pc obs).1) = [.raiseBarrier, .lowerBarrier])) := by
  intro obs
  induction obs with
  | nil =>
    intro pc
    simp only [exec_nil, events, barrierOps, List.map_nil, List.filter_nil, true_or, true_and,
      implies_true]
    refine ⟨?_, trivial⟩
    intro hr hrest
    have := (atRest_not_raised pc hrest).1
    rw [hr] at this
    exact absurd this (by decide)
  | cons s obs ih =>
    intro pc
    cases hst : tstep p tid s pc with
    | none =>
      simp only [exec_cons_none _ _ _ _ _ hst, events, barrierOps, List.map_nil, List.filter_nil,
        true_or, true_and, implies_true]
      refine ⟨?_, trivial⟩
      intro hr hrest
      have := (atRest_not_raised pc hrest).1
      rw [hr] at this
      exact absurd this (by decide)
    | some x =>
      obtain ⟨s', pc', e⟩ := x
      rw [exec_cons_some _ _ _ _ _ _ _ _ hst]
      obtain ⟨ih0, ih1, ih2⟩ := ih pc'
      have hcons : ∀ l : List Rec, barrierOps (events ({ pre := s, ev := e, post := s' } :: l))
          = (if isBarrierOp e = true then [e] else []) ++ barrierOps (events l) := by
        intro l
        simp only [barrierOps, events, List.map_cons, List.filter_cons]
        split <;> rfl
      simp only [hcons]
      rcases barrierOp_step p tid s s' pc pc' e hst with
        ⟨rfl, h1, h2⟩ | ⟨rfl, h1, h2, h3⟩ | ⟨h1, h2, h3⟩
      · have hnr := mayRaise_not_raised pc h1
        simp only [isBarrierOp, if_true, List.singleton_append, hnr, h1, Bool.false_eq_true,
          false_implies, true_implies, true_and]
        simp only [reduceCtorEq, false_implies, true_and]
        obtain ⟨ha, hb⟩ := ih1 h2
        refine ⟨?_, ?_⟩
        · rcases ha with ha | ha
          · right; left; rw [ha]
          · right; right; rw [ha]
        · intro hrest
          right; rw [hb hrest]
      · have hnm : pc.mayRaise = false := by
          cases hm : pc.mayRaise with
          | false => rfl
          | true => rw [mayRaise_not_raised pc hm] at h1; exact absurd h1 (by decide)
        have h0 := ih0 h2 h3
        simp only [isBarrierOp, if_true, List.singleton_append, h1, hnm, Bool.false_eq_true,
          false_implies, true_implies, true_and, h0, reduceCtorEq, or_true, implies_true,
          and_self]
      · simp only [h1, Bool.false_eq_true, if_false, List.nil_append]
        refine ⟨?_, ?_, ?_⟩
        · intro hr hm
          refine ih0 (h2 ▸ hr) ?_
          rcases h3 with h3 | h3
          · rw [h3]; exact hm
          · exact h3
        · intro hr
          exact ih1 (h2 ▸ hr)
        · intro hm
          rcases h3 with h3 | h3
          · exact ih2 (h3 ▸ hm)
          · have hr' : pc'.raised = false := h2 ▸ mayRaise_not_raised pc hm
            have := ih0 hr' h3
            simp only [this, true_or, implies_true, and_self]

theorem exec_barrierEffect (p : Params) (tid : Nat) : ∀ (obs : List World) (pc : PC),
    ∀ r ∈ (exec p tid pc obs).1,
      r.post.l.writeBarrier = barrierEffect p.w r.ev r.pre.l.writeBarrier := by
  intro obs
  induction obs with
  | nil => intro pc r hr; simp [exec_nil] at hr
  | cons s obs ih =>
    intro pc r hr
    cases hst : tstep p tid s pc with
    | none => simp [exec_cons_none _ _ _ _ _ hst] at hr
    | some x =>
      obtain ⟨s', pc', e⟩ := x
      rw [exec_cons_some _ _ _ _ _ _ _ _ hst] at hr
      simp only [List.mem_cons] at hr
      rcases hr with rfl | hr
      · exact tstep_barrierEffect p tid s s' pc pc' e hst
      · exact ih pc' r hr


/-! ## The patience of a reader -/

theorem wrapInt_succ (w : Nat) (k P : Int) (h0 : 0 ≤ k) (h1 : k < P) (h2 : P < 2 ^ (w - 1)) :
    wrapInt w (k + 1) = k + 1 := by
  unfold wrapInt
  have hw : 1 ≤ w := by
    rcases Nat.eq_zero_or_pos w with h | h
    · subst h
      simp at h2
      omega
    · exact h
  have hM : (2 : Int) ^ w = 2 * 2 ^ (w - 1) := by
    have : w = (w - 1) + 1 := by omega
    conv_lhs => rw [this]
    rw [pow_succ]
    ring
  rw [hM]
  generalize (2 : Int) ^ (w - 1) = H at *
  rw [Int.emod_eq_of_lt (by omega) (by omega)]
  omega

theorem events_exec_ret (p : Params) (tid : Nat) (r : Ret) (obs : List World) :
    events (exec p tid (.ret r) obs).1 = [] ∨ events (exec p tid (.ret r) obs).1 = [.ret r.value] := by
  cases obs with
  | nil => left; simp [exec_nil, events]
  | cons s obs =>
    right
    have t : tstep p tid s (.ret r) = some (s, r.rest, .ret r.value) := rfl
    rw [exec_cons_some _ _ _ _ _ _ _ _ t]
    have hrest : tstep p tid (obs.headD s) r.rest = none := by
      cases r with
      | try_lock b => cases b <;> rfl
      | _ => rfl
    cases obs with
    | nil => simp [exec_nil, events]
    | cons s2 obs2 =>
      simp only [List.headD_cons] at hrest
      simp [exec_cons_none _ _ _ _ _ hrest, events]

theorem patience_from (p : Params) (tid : Nat) (hP1 : p.P < 2 ^ (p.w - 1)) :
    ∀ (obs : List World) (k : Int), 0 ≤ k → k ≤ p.P → ∀ pc : PC,
      (pc = .rlock_arrive false k ∨ pc = .rlock_check false k ∨ pc = .rlock_depart false k
        ∨ pc = .rlock_wait false k ∨ pc = .rlock_yield false k) →
      (yieldsBeforeRaise (events (exec p tid pc obs).1) = none
        ∨ yieldsBeforeRaise (events (exec p tid pc obs).1) = some ((p.P - k).toNat + 1))
      ∧ (afterYield ((p.P - k).toNat + 1) (events (exec p tid pc obs).1) = none
        ∨ afterYield ((p.P - k).toNat + 1) (events (exec p tid pc obs).1)
            = some .raiseBarrier) := by
  intro obs
  induction obs with
  | nil =>
    intro k _ _ pc _
    simp [exec_nil, events, yieldsBeforeRaise, afterYield]
  | cons s obs ih =>
    intro k hk0 hk1 pc hpc
    rcases hpc with rfl | rfl | rfl | rfl | rfl
    · have t : tstep p tid s (.rlock_arrive false k)
          = some (_, .rlock_check false k, .rgri_arrive (rgri_get_thread_id p tid)) := rfl
      rw [exec_cons_some _ _ _ _ _ _ _ _ t]
      have := ih k hk0 hk1 (.rlock_check false k) (by simp)
      simpa [events, yieldsBeforeRaise, afterYield] using this
    · by_cases hl : tatas_is_locked s.l = true
      · have t : tstep p tid s (.rlock_check false k)
            = some (s, .rlock_depart false k, .tatas_is_locked true) := by
          simp [tstep, hl]
        rw [exec_cons_some _ _ _ _ _ _ _ _ t]
        have := ih k hk0 hk1 (.rlock_depart false k) (by simp)
        simpa [events, yieldsBeforeRaise, afterYield] using this
      · have t : tstep p tid s (.rlock_check false k)
            = some (s, .ret .rlock, .tatas_is_locked false) := by
          simp [tstep, hl]
        rw [exec_cons_some _ _ _ _ _ _ _ _ t]
        rcases events_exec_ret p tid .rlock obs with h | h <;>
          simp only [events] at h <;>
          simp [events, yieldsBeforeRaise, afterYield, h]
    · have t : tstep p tid s (.rlock_depart false k)
          = some (_, .rlock_wait false k, .rgri_depart (rgri_get_thread_id p tid)) := rfl
      rw [exec_cons_some _ _ _ _ _ _ _ _ t]
      have := ih k hk0 hk1 (.rlock_wait false k) (by simp)
      simpa [events, yieldsBeforeRaise, afterYield] using this
    · by_cases hl : tatas_is_locked s.l = true
      · have t : tstep p tid s (.rlock_wait false k)
            = some (s, .rlock_yield false k, .tatas_is_locked true) := by
          simp [tstep, hl]
        rw [exec_cons_some _ _ _ _ _ _ _ _ t]
        have := ih k hk0 hk1 (.rlock_yield false k) (by simp)
        simpa [events, yieldsBeforeRaise, afterYield] using this
      · have t : tstep p tid s (.rlock_wait false k)
            = some (s, .rlock_arrive false k, .tatas_is_locked false) := by
          simp [tstep, hl]
        rw [exec_cons_some _ _ _ _ _ _ _ _ t]
        have := ih k hk0 hk1 (.rlock_arrive false k) (by simp)
        simpa [events, yieldsBeforeRaise, afterYield] using this
    · by_cases hk : k = p.P
      · have t : tstep p tid s (.rlock_yield false k)
            = some (s, .rlock_raise k, .thread_yield) := by
          simp [tstep, hk]
        rw [exec_cons_some _ _ _ _ _ _ _ _ t]
        have hd : (p.P - k).toNat = 0 := by rw [hk]; simp
        rw [hd]
        cases obs with
        | nil => simp [exec_nil, events, yieldsBeforeRaise, afterYield]
        | cons s2 obs2 =>
          have t2 : tstep p tid s2 (.rlock_raise k)
              = some (_, .rlock_wait true (wrapInt p.w (k + 1)), .raiseBarrier) := rfl
          rw [exec_cons_some _ _ _ _ _ _ _ _ t2]
          simp [events, yieldsBeforeRaise, afterYield]
      · have hlt : k < p.P := by omega
        have t : tstep p tid s (.rlock_yield false k)
            = some (s, .rlock_wait false (k + 1), .thread_yield) := by
          simp [tstep, hk, wrapInt_succ p.w k p.P hk0 hlt hP1]
        rw [exec_cons_some _ _ _ _ _ _ _ _ t]
        have := ih (k + 1) (by omega) (by omega) (.rlock_wait false (k + 1)) (by simp)
        have hd : (p.P - k).toNat = (p.P - (k + 1)).toNat + 1 := by omega
        rw [hd]
        rcases this with ⟨h1 | h1, h2 | h2⟩ <;>
          simp [events, yieldsBeforeRaise, afterYield, h1, h2] <;>
          simp only [events] at h1 h2 <;> simp [h1, h2]


set_option maxRecDepth 1000000

/-- C6, as stated, fails: with `P = 100` and the mutex held at every look, the
reader has yielded 100 times after 204 steps and has not touched the barrier;
its increment comes two steps later, after the 101st yield. -/
theorem patience_hundred_counterexample :
    (events (exec patienceHundred 0 (.rlock_arrive false 0)
        (keptLocked patienceHundred 204)).1).count .thread_yield = 100
    ∧ Event.raiseBarrier ∉ events (exec patienceHundred 0 (.rlock_arrive false 0)
        (keptLocked patienceHundred 204)).1
    ∧ yieldsBeforeRaise (events (exec patienceHundred 0 (.rlock_arrive false 0)
        (keptLocked patienceHundred 206)).1) = some 101 := by
  refine ⟨by decide, by decide, by rfl⟩

/-- C6, amended: for every patience limit `P` with `0 ≤ P < 2^(w-1)` and every
execution of `mrqd_rlock`, retries included, an increment of the barrier has
exactly `P + 1` yields of the call before it, and the step that follows the
`(P + 1)`-th yield is the increment; the call increments the barrier at most
once, by one modulo `2^w`. -/
theorem patience_raise_after_limit_plus_one (p : Params) (tid : Nat) (obs : List World)
    (hP0 : 0 ≤ p.P) (hP1 : p.P < 2 ^ (p.w - 1)) :
    (yieldsBeforeRaise (events (exec p tid (.rlock_arrive false 0) obs).1) = none
      ∨ yieldsBeforeRaise (events (exec p tid (.rlock_arrive false 0) obs).1)
          = some (p.P.toNat + 1))
    ∧ (afterYield (p.P.toNat + 1) (events (exec p tid (.rlock_arrive false 0) obs).1) = none
      ∨ afterYield (p.P.toNat + 1) (events (exec p tid (.rlock_arrive false 0) obs).1)
          = some .raiseBarrier)
    ∧ (events (exec p tid (.rlock_arrive false 0) obs).1).count .raiseBarrier ≤ 1
    ∧ (∀ r ∈ (exec p tid (.rlock_arrive false 0) obs).1, r.ev = .raiseBarrier →
        r.post.l.writeBarrier = (r.pre.l.writeBarrier + 1) % 2 ^ p.w) := by
  have h := patience_from p tid hP1 obs 0 (le_refl 0) hP0 (.rlock_arrive false 0) (by simp)
  simp only [sub_zero] at h
  refine ⟨h.1, h.2, ?_, ?_⟩
  · have hops := ((exec_barrierOps p tid obs (.rlock_arrive false 0)).2.2 rfl).1
    have hc : ∀ tr : List Event, tr.count .raiseBarrier = (barrierOps tr).count .raiseBarrier := by
      intro tr
      induction tr with
      | nil => rfl
      | cons e tr ih =>
        cases e <;> simp [barrierOps, List.filter_cons, isBarrierOp, List.count_cons] at ih ⊢
    rw [hc]
    rcases hops with h | h | h <;> rw [h] <;> decide
  · intro r hr hev
    have := exec_barrierEffect p tid obs _ r hr
    rw [hev] at this
    exact this

/-- C6 amended, at a concrete input: with a patience limit of 2 and the mutex
held at every look, the increment comes after three yields. -/
theorem patience_raise_after_limit_plus_one_witness :
    yieldsBeforeRaise (events (exec patienceTwo 0 (.rlock_arrive false 0)
        (keptLocked patienceTwo 12)).1) = some 3
    ∧ afterYield 3 (events (exec patienceTwo 0 (.rlock_arrive false 0)
        (keptLocked patienceTwo 12)).1) = some .raiseBarrier
    ∧ (events (exec patienceTwo 0 (.rlock_arrive false 0)
        (keptLocked patienceTwo 12)).1).count .raiseBarrier ≤ 1 :=
  ⟨rfl, rfl,
    (patience_raise_after_limit_plus_one patienceTwo 0 (keptLocked patienceTwo 12)
      (by decide) (by decide)).2.2.1⟩

/-! ## The phases of a call that returns -/

theorem exec_rest (p : Params) (tid : Nat) (pc : PC) (obs : List World) (h : pc.atRest = true) :
    exec p tid pc obs = ([], pc) := by
  cases obs with
  | nil => exact exec_nil p tid pc
  | cons s obs =>
    apply exec_cons_none
    cases pc <;> first | rfl | (simp [PC.atRest] at h)

theorem atRest_rest (r : Ret) : r.rest.atRest = true := by
  cases r with
  | try_lock b => cases b <;> rfl
  | _ => rfl

theorem exec_ret_returned (p : Params) (tid : Nat) (r : Ret) (obs : List World)
    (h : (exec p tid (.ret r) obs).2.atRest = true) :
    ∃ s, exec p tid (.ret r) obs = ([{ pre := s, ev := .ret r.value, post := s }], r.rest) := by
  cases obs with
  | nil => simp [exec_nil, PC.atRest] at h
  | cons s obs =>
    have t : tstep p tid s (.ret r) = some (s, r.rest, .ret r.value) := rfl
    refine ⟨s, ?_⟩
    rw [exec_cons_some _ _ _ _ _ _ _ _ t, exec_rest _ _ _ _ (atRest_rest r)]

theorem barrier_phase_ret (p : Params) (tid : Nat) (b y n : PC)
    (hb : ∀ s, tstep p tid s b
      = some (s, if s.l.writeBarrier > 0 then y else n, .loadBarrier s.l.writeBarrier))
    (hy : ∀ s, tstep p tid s y = some (s, b, .thread_yield))
    (hbr : b.atRest = false) (hyr : y.atRest = false) :
    ∀ obs : List World,
      ((exec p tid b obs).2.atRest = true →
        ∃ spin obs', (exec p tid b obs).1 = spin ++ (exec p tid n obs').1
          ∧ (exec p tid b obs).2 = (exec p tid n obs').2 ∧ ∀ r ∈ spin, isBarrierRec r)
      ∧ ((exec p tid y obs).2.atRest = true →
        ∃ spin obs', (exec p tid y obs).1 = spin ++ (exec p tid n obs').1
          ∧ (exec p tid y obs).2 = (exec p tid n obs').2 ∧ ∀ r ∈ spin, isBarrierRec r) := by
  intro obs
  induction obs with
  | nil =>
    simp only [exec_nil, hbr, hyr, Bool.false_eq_true, false_implies, and_self]
  | cons s obs ih =>
    constructor
    · rw [exec_cons_some _ _ _ _ _ _ _ _ (hb s)]
      by_cases hv : s.l.writeBarrier > 0
      · simp only [hv, if_true]
        intro hret
        obtain ⟨spin, obs', h1, h2, h3⟩ := ih.2 hret
        refine ⟨_ :: spin, obs', by rw [h1]; rfl, h2, ?_⟩
        intro r hr
        simp only [List.mem_cons] at hr
        rcases hr with rfl | hr
        · exact ⟨rfl, Or.inr ⟨_, rfl⟩⟩
        · exact h3 r hr
      · simp only [hv, if_false]
        intro _
        refine ⟨[_], obs, rfl, rfl, ?_⟩
        intro r hr
        simp only [List.mem_singleton] at hr
        subst hr
        exact ⟨rfl, Or.inr ⟨_, rfl⟩⟩
    · rw [exec_cons_some _ _ _ _ _ _ _ _ (hy s)]
      intro hret
      obtain ⟨spin, obs', h1, h2, h3⟩ := ih.1 hret
      refine ⟨_ :: spin, obs', by rw [h1]; rfl, h2, ?_⟩
      intro r hr
      simp only [List.mem_cons] at hr
      rcases hr with rfl | hr
      · exact ⟨rfl, Or.inl rfl⟩
      · exact h3 r hr

theorem wait_phase_ret (p : Params) (tid : Nat) (c : Caller) :
    ∀ (obs : List World) (i : Nat), i < p.G →
      ((exec p tid (.wait_load c i) obs).2.atRest = true →
        ∃ drain obs', (exec p tid (.wait_load c i) obs).1 = drain ++ (exec p tid (afterWait c) obs').1
          ∧ (exec p tid (.wait_load c i) obs).2 = (exec p tid (afterWait c) obs').2
          ∧ (∀ r ∈ drain, isDrainRec r)
          ∧ zeroLoads (events drain) = List.range' i (p.G - i))
      ∧ ((exec p tid (.wait_yield c i) obs).2.atRest = true →
        ∃ drain obs', (exec p tid (.wait_yield c i) obs).1 = drain ++ (exec p tid (afterWait c) obs').1
          ∧ (exec p tid (.wait_yield c i) obs).2 = (exec p tid (afterWait c) obs').2
          ∧ (∀ r ∈ drain, isDrainRec r)
          ∧ zeroLoads (events drain) = List.range' i (p.G - i)) := by
  intro obs
  induction obs with
  | nil =>
    intro i _
    simp only [exec_nil, PC.atRest, Bool.false_eq_true, false_implies, and_self]
  | cons s obs ih =>
    intro i hi
    constructor
    · have t : tstep p tid s (.wait_load c i)
          = some (s, if 0 < s.l.readIndicator.getD i 0 then .wait_yield c i
                     else waitFrom p c (i + 1), .loadGroup i (s.l.readIndicator.getD i 0)) := rfl
      rw [exec_cons_some _ _ _ _ _ _ _ _ t]
      by_cases hv : 0 < s.l.readIndicator.getD i 0
      · simp only [hv, if_true]
        intro hret
        obtain ⟨drain, obs', h1, h2, h3, h4⟩ := (ih i hi).2 hret
        refine ⟨_ :: drain, obs', by rw [h1]; rfl, h2, ?_, ?_⟩
        · intro r hr
          simp only [List.mem_cons] at hr
          rcases hr with rfl | hr
          · exact ⟨rfl, Or.inr ⟨_, _, rfl⟩⟩
          · exact h3 r hr
        · have hne : s.l.readIndicator.getD i 0 ≠ 0 := by omega
          simp only [events, List.map_cons, zeroLoads, hne, if_false]
          exact h4
      · simp only [hv, if_false]
        have h0 : s.l.readIndicator.getD i 0 = 0 := by omega
        by_cases hi1 : i + 1 < p.G
        · simp only [waitFrom, hi1, if_true]
          intro hret
          obtain ⟨drain, obs', h1, h2, h3, h4⟩ := (ih (i + 1) hi1).1 hret
          refine ⟨_ :: drain, obs', by rw [h1]; rfl, h2, ?_, ?_⟩
          · intro r hr
            simp only [List.mem_cons] at hr
            rcases hr with rfl | hr
            · exact ⟨rfl, Or.inr ⟨_, _, rfl⟩⟩
            · exact h3 r hr
          · simp only [events, List.map_cons, zeroLoads, h0, if_true]
            simp only [events] at h4
            rw [h4, show p.G - i = (p.G - (i + 1)) + 1 by omega, List.range'_succ]
        · simp only [waitFrom, hi1, if_false]
          intro _
          refine ⟨[_], obs, rfl, rfl, ?_, ?_⟩
          · intro r hr
            simp only [List.mem_singleton] at hr
            subst hr
            exact ⟨rfl, Or.inr ⟨_, _, rfl⟩⟩
          · simp only [events, List.map_cons, List.map_nil, zeroLoads, h0, if_true]
            rw [show p.G - i = 1 by omega]
            rfl
    · have t : tstep p tid s (.wait_yield c i) = some (s, .wait_load c i, .thread_yield) := rfl
      rw [exec_cons_some _ _ _ _ _ _ _ _ t]
      intro hret
      obtain ⟨drain, obs', h1, h2, h3, h4⟩ := (ih i hi).1 hret
      refine ⟨_ :: drain, obs', by rw [h1]; rfl, h2, ?_, ?_⟩
      · intro r hr
        simp only [List.mem_cons] at hr
        rcases hr with rfl | hr
        · exact ⟨rfl, Or.inl rfl⟩
        · exact h3 r hr
      · simp only [events, List.map_cons, zeroLoads]
        exact h4

theorem waitFrom_phase_ret (p : Params) (tid : Nat) (c : Caller) (obs : List World)
    (hret : (exec p tid (waitFrom p c 0) obs).2.atRest = true) :
    ∃ drain obs', (exec p tid (waitFrom p c 0) obs).1 = drain ++ (exec p tid (afterWait c) obs').1
      ∧ (exec p tid (waitFrom p c 0) obs).2 = (exec p tid (afterWait c) obs').2
      ∧ (∀ r ∈ drain, isDrainRec r)
      ∧ zeroLoads (events drain) = List.range p.G := by
  by_cases h : 0 < p.G
  · simp only [waitFrom, h, if_true] at hret ⊢
    have := (wait_phase_ret p tid c obs 0 h).1 hret
    simpa [List.range_eq_range'] using this
  · simp only [waitFrom, h, if_false] at hret ⊢
    refine ⟨[], obs, rfl, rfl, by simp, ?_⟩
    have : p.G = 0 := by omega
    simp [this, events, zeroLoads]


theorem exec_returned_cons (p : Params) (tid : Nat) (pc : PC) (obs : List World)
    (hpc : pc.atRest = false) (h : (exec p tid pc obs).2.atRest = true) :
    ∃ s o, obs = s :: o := by
  cases obs with
  | nil =>
    rw [exec_nil] at h
    rw [hpc] at h
    exact absurd h (by decide)
  | cons s o => exact ⟨s, o, rfl⟩

/-! ## C4: the contract of `mrqd_try_lock` -/

theorem tstep_none_atRest (p : Params) (tid : Nat) (s : World) (pc : PC)
    (h : tstep p tid s pc = none) : pc.atRest = true := by
  cases pc <;> simp only [tstep] at h <;> (try split_ifs at h) <;>
    first
    | rfl
    | exact absurd h (by simp)

theorem exec_append (p : Params) (tid : Nat) (obs2 : List World) :
    ∀ (obs1 : List World) (pc : PC), (exec p tid pc obs1).2.atRest = false →
      exec p tid pc (obs1 ++ obs2)
        = ((exec p tid pc obs1).1 ++ (exec p tid (exec p tid pc obs1).2 obs2).1,
            (exec p tid (exec p tid pc obs1).2 obs2).2) := by
  intro obs1
  induction obs1 with
  | nil =>
    intro pc _
    simp [exec_nil]
  | cons s obs1 ih =>
    intro pc h
    cases hst : tstep p tid s pc with
    | none =>
      rw [exec_cons_none _ _ _ _ _ hst] at h
      rw [tstep_none_atRest p tid s pc hst] at h
      exact absurd h (by decide)
    | some x =>
      obtain ⟨s', pc', e⟩ := x
      rw [exec_cons_some _ _ _ _ _ _ _ _ hst] at h ⊢
      simp only at h
      rw [List.cons_append, exec_cons_some _ _ _ _ _ _ _ _ hst, ih pc' h]
      rfl

theorem exec_wait_zero (p : Params) (tid : Nat) (c : Caller) (rest : List World) :
    ∀ (drainObs : List World) (i : Nat), i + drainObs.length = p.G →
      (∀ s ∈ drainObs, groupsZero s) →
      events (exec p tid (waitFrom p c i) (drainObs ++ rest)).1
          = (List.range' i drainObs.length).map (fun j => Event.loadGroup j 0)
              ++ events (exec p tid (afterWait c) rest).1
      ∧ (exec p tid (waitFrom p c i) (drainObs ++ rest)).2
          = (exec p tid (afterWait c) rest).2 := by
  intro drainObs
  induction drainObs with
  | nil =>
    intro i hi _
    have : ¬ i < p.G := by simp at hi; omega
    simp [waitFrom, this]
  | cons s obs ih =>
    intro i hi hz
    have hlt : i < p.G := by simp at hi; omega
    have h0 : s.l.readIndicator.getD i 0 = 0 := hz s (by simp) i
    have t : tstep p tid s (.wait_load c i)
        = some (s, waitFrom p c (i + 1), .loadGroup i 0) := by
      simp only [tstep, h0, Nat.lt_irrefl, if_false]
    have := ih (i + 1) (by simp at hi ⊢; omega) (fun s' hs' => hz s' (by simp [hs']))
    simp only [waitFrom, hlt, if_true, List.cons_append]
    rw [exec_cons_some _ _ _ _ _ _ _ _ t]
    simp only [events, List.map_cons, List.length_cons, List.range'_succ, List.cons_append]
    simp only [events] at this
    exact ⟨by rw [this.1], this.2⟩

theorem try_lock_returned (p : Params) (tid : Nat) (obs : List World)
    (hret : (exec p tid .try_barrier obs).2.atRest = true) :
    ∃ spin acq tail b,
      (exec p tid .try_barrier obs).1 = spin ++ acq :: tail
      ∧ (∀ r ∈ spin, isBarrierRec r)
      ∧ acq.ev = .tatas_try_lock b
      ∧ tatas_try_lock acq.pre.l = (acq.post.l, b)
      ∧ acq.post.ran = acq.pre.ran
      ∧ (b = false →
          acq.post = acq.pre ∧ (exec p tid .try_barrier obs).2 = .idle
          ∧ ∃ s, tail = [{ pre := s, ev := .ret (some false), post := s }])
      ∧ (b = true →
          acq.pre.l.mutexLock = false ∧ acq.post.l.mutexLock = true
          ∧ (exec p tid .try_barrier obs).2 = .writeCS
          ∧ ∃ drain s, tail = drain ++ [{ pre := s, ev := .ret (some true), post := s }]
              ∧ (∀ r ∈ drain, isDrainRec r)
              ∧ zeroLoads (events drain) = List.range p.G) := by
  obtain ⟨spin, obs1, h1, h2, h3⟩ :=
    (barrier_phase_ret p tid .try_barrier .try_barrier_yield .try_tatas
      (fun _ => rfl) (fun _ => rfl) rfl rfl obs).1 hret
  rw [h2] at hret ⊢
  rw [h1]
  obtain ⟨s, o, rfl⟩ := exec_returned_cons p tid .try_tatas obs1 rfl hret
  by_cases hacq : (tatas_try_lock s.l).2 = true
  · have t : tstep p tid s .try_tatas
        = some ({ s with l := (tatas_try_lock s.l).1 }, waitFrom p .try_lock 0,
            .tatas_try_lock true) := by
      simp [tstep, hacq]
    rw [exec_cons_some _ _ _ _ _ _ _ _ t] at hret ⊢
    simp only at hret
    obtain ⟨drain, obs2, d1, d2, d3, d4⟩ := waitFrom_phase_ret p tid .try_lock o hret
    rw [d2] at hret
    obtain ⟨s3, hr⟩ := exec_ret_returned p tid (.try_lock true) obs2 hret
    simp only [afterWait] at d1 d2
    rw [hr] at d1 d2
    refine ⟨spin, _, _, true, rfl, h3, rfl, ?_, rfl, by simp, ?_⟩
    · simp only
      rw [← hacq]
    · intro _
      have hf := tatas_try_lock_fst_of_ok _ hacq
      refine ⟨hf.1, by simp only; rw [hf.2], d2, drain, s3, d1, d3, d4⟩
  · have t : tstep p tid s .try_tatas
        = some ({ s with l := (tatas_try_lock s.l).1 }, .ret (.try_lock false),
            .tatas_try_lock false) := by
      simp [tstep, hacq]
    rw [exec_cons_some _ _ _ _ _ _ _ _ t] at hret ⊢
    simp only at hret
    obtain ⟨s3, hr⟩ := exec_ret_returned p tid (.try_lock false) o hret
    rw [hr]
    have hf := tatas_try_lock_fst_of_fail _ hacq
    have hb : (tatas_try_lock s.l).2 = false := by simpa using hacq
    refine ⟨spin, _, _, false, rfl, h3, rfl, ?_, rfl, ?_, by simp⟩
    · simp only
      rw [← hb]
    · intro _
      refine ⟨by simp only; rw [hf], rfl, s3, rfl⟩

/-- C4: `mrqd_try_lock` returns the result of its one `tatas_try_lock`.
Once the barrier loop has brought the call to its `tatas_try_lock`, whatever was
observed before: if the mutex is found held, the attempt fails and the very
next step returns `false`, both steps leaving the world as they found it, with
no load of a reader group; if the mutex is found free and every group is then
found at zero, the call loads the groups `0 .. G-1` in this order and returns
`true`, back in its write section.  A first load of a zero barrier brings the
call to its `tatas_try_lock`.  Every execution that returns, whatever the other
threads do, is the barrier loop, one `tatas_try_lock` and the rest: after a
failure, the return of `false` alone, no step of the call having changed the
world; after an acquisition, which finds the mutex free and leaves it held, the
drain, which changes nothing and loads the groups `0 .. G-1` at zero in this
order, and the return of `true`. -/
theorem try_lock_contract (p : Params) (tid : Nat) :
    (∀ (obs1 : List World) (s1 s2 : World) (rest : List World),
        (exec p tid .try_barrier obs1).2 = .try_tatas → s1.l.mutexLock = true →
        exec p tid .try_barrier (obs1 ++ s1 :: s2 :: rest)
          = ((exec p tid .try_barrier obs1).1
              ++ [{ pre := s1, ev := .tatas_try_lock false, post := s1 },
                  { pre := s2, ev := .ret (some false), post := s2 }], .idle))
    ∧ (∀ (obs1 : List World) (s1 : World) (drainObs : List World) (s2 : World)
        (rest : List World),
        (exec p tid .try_barrier obs1).2 = .try_tatas → s1.l.mutexLock = false →
        drainObs.length = p.G → (∀ s ∈ drainObs, groupsZero s) →
        events (exec p tid .try_barrier (obs1 ++ s1 :: (drainObs ++ s2 :: rest))).1
          = events (exec p tid .try_barrier obs1).1 ++ [Event.tatas_try_lock true]
              ++ (List.range p.G).map (fun i => Event.loadGroup i 0)
              ++ [Event.ret (some true)]
        ∧ (exec p tid .try_barrier (obs1 ++ s1 :: (drainObs ++ s2 :: rest))).2 = .writeCS)
    ∧ (∀ s0 : World, s0.l.writeBarrier = 0 →
        exec p tid .try_barrier [s0]
          = ([{ pre := s0, ev := .loadBarrier 0, post := s0 }], .try_tatas))
    ∧ (∀ obs : List World, (exec p tid .try_barrier obs).2.atRest = true →
        ∃ spin acq tail b,
          (exec p tid .try_barrier obs).1 = spin ++ acq :: tail
          ∧ (∀ r ∈ spin, isBarrierRec r)
          ∧ acq.ev = .tatas_try_lock b
          ∧ tatas_try_lock acq.pre.l = (acq.post.l, b)
          ∧ acq.post.ran = acq.pre.ran
          ∧ (b = false →
              acq.post = acq.pre ∧ (exec p tid .try_barrier obs).2 = .idle
              ∧ ∃ s, tail = [{ pre := s, ev := .ret (some false), post := s }])
          ∧ (b = true →
              acq.pre.l.mutexLock = false ∧ acq.post.l.mutexLock = true
              ∧ (exec p tid .try_barrier obs).2 = .writeCS
              ∧ ∃ drain s, tail = drain ++ [{ pre := s, ev := .ret (some true), post := s }]
                  ∧ (∀ r ∈ drain, isDrainRec r)
                  ∧ zeroLoads (events drain) = List.range p.G)) := by
  refine ⟨?_, ?_, ?_, fun obs hret => try_lock_returned p tid obs hret⟩
  · intro obs1 s1 s2 rest hpc hm
    have hnr : (exec p tid .try_barrier obs1).2.atRest = false := by rw [hpc]; rfl
    have t1 : tstep p tid s1 .try_tatas
        = some (s1, .ret (.try_lock false), .tatas_try_lock false) := by
      simp [tstep, tatas_try_lock_of_locked _ hm]
    have t2 : tstep p tid s2 (.ret (.try_lock false)) = some (s2, .idle, .ret (some false)) :=
      rfl
    rw [exec_append p tid _ obs1 _ hnr, hpc, exec_cons_some _ _ _ _ _ _ _ _ t1,
      exec_cons_some _ _ _ _ _ _ _ _ t2, exec_rest _ _ .idle _ rfl]
  · intro obs1 s1 drainObs s2 rest hpc hm hlen hz
    have hnr : (exec p tid .try_barrier obs1).2.atRest = false := by rw [hpc]; rfl
    have t1 : tstep p tid s1 .try_tatas
        = some (s1.setMutex true, waitFrom p .try_lock 0, .tatas_try_lock true) := by
      simp [tstep, tatas_try_lock_of_free _ hm, World.setMutex]
    have t2 : tstep p tid s2 (afterWait .try_lock) = some (s2, .writeCS, .ret (some true)) :=
      rfl
    have hw := exec_wait_zero p tid .try_lock (s2 :: rest) drainObs 0 (by omega) hz
    rw [exec_cons_some _ _ _ _ _ _ _ _ t2, exec_rest _ _ .writeCS _ rfl] at hw
    rw [exec_append p tid _ obs1 _ hnr, hpc, exec_cons_some _ _ _ _ _ _ _ _ t1]
    refine ⟨?_, hw.2⟩
    have hev : ∀ a b : List Rec, events (a ++ b) = events a ++ events b := by
      intro a b
      simp [events]
    rw [hev]
    simp only [events, List.map_cons] at hw ⊢
    rw [hw.1, hlen, List.range_eq_range']
    simp
  · intro s0 h0
    have t : tstep p tid s0 .try_barrier = some (s0, .try_tatas, .loadBarrier 0) := by
      simp [tstep, h0]
    rw [exec_cons_some _ _ _ _ _ _ _ _ t, exec_nil]

/-- C4, at a concrete input, thread 0 with the default parameters: finding the
lock held, the call returns false in the step after its `tatas_try_lock`;
finding it free, it returns true after loading the four groups. -/
theorem try_lock_contract_witness :
    exec defaultParams 0 .try_barrier
        [heldWorld defaultParams, heldWorld defaultParams, heldWorld defaultParams]
      = ([{ pre := heldWorld defaultParams, ev := .loadBarrier 0,
            post := heldWorld defaultParams },
          { pre := heldWorld defaultParams, ev := .tatas_try_lock false,
            post := heldWorld defaultParams },
          { pre := heldWorld defaultParams, ev := .ret (some false),
            post := heldWorld defaultParams }], .idle)
    ∧ (events (exec defaultParams 0 .try_barrier tryLockObs).1
          = [.loadBarrier 0, .tatas_try_lock true, .loadGroup 0 0, .loadGroup 1 0,
              .loadGroup 2 0, .loadGroup 3 0, .ret (some true)]
        ∧ (exec defaultParams 0 .try_barrier tryLockObs).2 = .writeCS)
    ∧ ∃ spin acq tail b,
      (exec defaultParams 0 .try_barrier tryLockObs).1 = spin ++ acq :: tail
      ∧ (∀ r ∈ spin, isBarrierRec r)
      ∧ acq.ev = .tatas_try_lock b
      ∧ tatas_try_lock acq.pre.l = (acq.post.l, b)
      ∧ acq.post.ran = acq.pre.ran
      ∧ (b = false →
          acq.post = acq.pre ∧ (exec defaultParams 0 .try_barrier tryLockObs).2 = .idle
          ∧ ∃ s, tail = [{ pre := s, ev := .ret (some false), post := s }])
      ∧ (b = true →
          acq.pre.l.mutexLock = false ∧ acq.post.l.mutexLock = true
          ∧ (exec defaultParams 0 .try_barrier tryLockObs).2 = .writeCS
          ∧ ∃ drain s, tail = drain ++ [{ pre := s, ev := .ret (some true), post := s }]
              ∧ (∀ r ∈ drain, isDrainRec r)
              ∧ zeroLoads (events drain) = List.range defaultParams.G) :=
  ⟨(try_lock_contract defaultParams 0).1 [heldWorld defaultParams] (heldWorld defaultParams)
      (heldWorld defaultParams) [] rfl rfl,
    (try_lock_contract defaultParams 0).2.1 [zeroWorld defaultParams] (zeroWorld defaultParams)
      (List.replicate 4 (heldWorld defaultParams)) (heldWorld defaultParams) [] rfl rfl rfl
      (fun s hs => by
        rw [List.eq_of_mem_replicate hs]
        exact groupsZero_zeroWorld defaultParams),
    (try_lock_contract defaultParams 0).2.2.2 tryLockObs rfl⟩


/-! ## C2: a delegate schedules its message exactly once -/

theorem failedRounds_not_scheduling (m : Msg) (n : Nat) :
    (failedRounds m n).filter isScheduling = [] := by
  induction n with
  | zero => rfl
  | succ n ih => simpa [failedRounds, List.filter_cons, isScheduling] using ih

theorem barrier_not_scheduling (spin : List Rec) (h : ∀ r ∈ spin, isBarrierRec r) :
    (events spin).filter isScheduling = [] := by
  rw [List.filter_eq_nil_iff]
  intro e he
  simp only [events, List.mem_map] at he
  obtain ⟨r, hr, rfl⟩ := he
  rcases (h r hr).2 with h1 | ⟨v, h1⟩ <;> rw [h1] <;> simp [isScheduling]

theorem drain_not_scheduling (drain : List Rec) (h : ∀ r ∈ drain, isDrainRec r) :
    (events drain).filter isScheduling = [] := by
  rw [List.filter_eq_nil_iff]
  intro e he
  simp only [events, List.mem_map] at he
  obtain ⟨r, hr, rfl⟩ := he
  rcases (h r hr).2 with h1 | ⟨i, v, h1⟩ <;> rw [h1] <;> simp [isScheduling]

theorem delegate_direct_ret (p : Params) (tid : Nat) (m : Msg) (obs : List World)
    (s : World) (hacq : (tatas_try_lock s.l).2 = true)
    (hret : (exec p tid (.del_try m) (s :: obs)).2.atRest = true) :
    (exec p tid (.del_try m) (s :: obs)).2 = .idle
    ∧ directRun p m (exec p tid (.del_try m) (s :: obs)).1 := by
  have t : tstep p tid s (.del_try m)
      = some ({ s with l := (tatas_try_lock s.l).1 }, .del_open m, .tatas_try_lock true) := by
    simp [tstep, hacq]
  rw [exec_cons_some _ _ _ _ _ _ _ _ t] at hret ⊢
  simp only at hret ⊢
  obtain ⟨s2, o2, rfl⟩ := exec_returned_cons p tid (.del_open m) obs rfl hret
  have t2 : tstep p tid s2 (.del_open m)
      = some ({ s2 with l := { s2.l with queue := qdq_open s2.l.queue } },
          waitFrom p (.delegate m) 0, .qdq_open) := rfl
  rw [exec_cons_some _ _ _ _ _ _ _ _ t2] at hret ⊢
  simp only at hret ⊢
  obtain ⟨drain, o3, d1, d2, d3, d4⟩ := waitFrom_phase_ret p tid (.delegate m) o2 hret
  rw [d2] at hret
  rw [d1, d2]
  simp only [afterWait] at hret ⊢
  obtain ⟨s4, o4, rfl⟩ := exec_returned_cons p tid (.del_call m) o3 rfl hret
  have t4 : tstep p tid s4 (.del_call m) = some (callFn m s4, .del_flush m, .funPtr m) := rfl
  rw [exec_cons_some _ _ _ _ _ _ _ _ t4] at hret ⊢
  simp only at hret ⊢
  obtain ⟨s5, o5, rfl⟩ := exec_returned_cons p tid (.del_flush m) o4 rfl hret
  have t5 : tstep p tid s5 (.del_flush m)
      = some ({ l := { s5.l with queue := (qdq_flush s5.l.queue).1 },
                ran := s5.ran ++ (qdq_flush s5.l.queue).2 },
          .del_unlock m, .qdq_flush (qdq_flush s5.l.queue).2) := rfl
  rw [exec_cons_some _ _ _ _ _ _ _ _ t5] at hret ⊢
  simp only at hret ⊢
  obtain ⟨s6, o6, rfl⟩ := exec_returned_cons p tid (.del_unlock m) o5 rfl hret
  have t6 : tstep p tid s6 (.del_unlock m)
      = some ({ s6 with l := tatas_unlock s6.l }, .ret .delegate, .tatas_unlock) := rfl
  rw [exec_cons_some _ _ _ _ _ _ _ _ t6] at hret ⊢
  simp only at hret ⊢
  obtain ⟨s7, hr⟩ := exec_ret_returned p tid .delegate o6 hret
  rw [hr]
  have hf := tatas_try_lock_fst_of_ok _ hacq
  refine ⟨rfl, ⟨s, .tatas_try_lock true, { s with l := (tatas_try_lock s.l).1 }⟩,
    ⟨s2, .qdq_open, { s2 with l := { s2.l with queue := qdq_open s2.l.queue } }⟩, drain,
    ⟨s4, .funPtr m, callFn m s4⟩,
    ⟨s5, .qdq_flush (qdq_flush s5.l.queue).2,
      { l := { s5.l with queue := (qdq_flush s5.l.queue).1 },
        ran := s5.ran ++ (qdq_flush s5.l.queue).2 }⟩,
    ⟨s6, .tatas_unlock, { s6 with l := tatas_unlock s6.l }⟩,
    ⟨s7, .ret none, s7⟩, ?_, rfl, hf.1, ?_, rfl, d3, d4, rfl, rfl, rfl, rfl, rfl⟩
  · simp [Ret.value]
  · simp only
    rw [hf.2]

theorem delegate_loop_ret (p : Params) (tid : Nat) (m : Msg) :
    ∀ (n : Nat) (obs : List World), obs.length ≤ n →
      (exec p tid (.del_try m) obs).2.atRest = true →
      ∃ k failed fin,
        (exec p tid (.del_try m) obs).1 = failed ++ fin
        ∧ (exec p tid (.del_try m) obs).2 = .idle
        ∧ events failed = failedRounds m k ∧ (∀ r ∈ failed, r.post = r.pre)
        ∧ (directRun p m fin ∨ delegatedRun m fin) := by
  intro n
  induction n with
  | zero =>
    intro obs hlen hret
    obtain ⟨s, o, rfl⟩ := exec_returned_cons p tid (.del_try m) obs rfl hret
    simp at hlen
  | succ n ih =>
    intro obs hlen hret
    obtain ⟨s, o, rfl⟩ := exec_returned_cons p tid (.del_try m) obs rfl hret
    by_cases hacq : (tatas_try_lock s.l).2 = true
    · obtain ⟨h1, h2⟩ := delegate_direct_ret p tid m o s hacq hret
      exact ⟨0, [], _, rfl, h1, rfl, by simp, Or.inl h2⟩
    · have hf := tatas_try_lock_fst_of_fail _ hacq
      have t : tstep p tid s (.del_try m) = some (s, .del_enqueue m, .tatas_try_lock false) := by
        simp [tstep, hacq, hf]
      rw [exec_cons_some _ _ _ _ _ _ _ _ t] at hret ⊢
      simp only at hret ⊢
      obtain ⟨s2, o2, rfl⟩ := exec_returned_cons p tid (.del_enqueue m) o rfl hret
      by_cases henq : (qdq_enqueue p.Q s2.l.queue m).2 = true
      · have t2 : tstep p tid s2 (.del_enqueue m)
            = some ({ s2 with l := { s2.l with queue := (qdq_enqueue p.Q s2.l.queue m).1 } },
                .ret .delegate, .qdq_enqueue m true) := by
          simp [tstep, henq]
        rw [exec_cons_some _ _ _ _ _ _ _ _ t2] at hret ⊢
        simp only at hret ⊢
        obtain ⟨s3, hr⟩ := exec_ret_returned p tid .delegate o2 hret
        rw [hr]
        refine ⟨0, [], _, rfl, rfl, rfl, by simp, Or.inr ⟨_, _, _, rfl, rfl, rfl, rfl, ?_, rfl, rfl⟩⟩
        simp only [qdq_enqueue] at henq ⊢
        split at henq
        · rename_i hc
          simp [hc]
        · simp at henq
      · have hq : (qdq_enqueue p.Q s2.l.queue m).1 = s2.l.queue := by
          simp only [qdq_enqueue] at henq ⊢
          split at henq
          · simp at henq
          · rename_i hc
            simp [hc]
        have t2 : tstep p tid s2 (.del_enqueue m)
            = some (s2, .del_yield m, .qdq_enqueue m false) := by
          simp [tstep, henq, hq]
        rw [exec_cons_some _ _ _ _ _ _ _ _ t2] at hret ⊢
        simp only at hret ⊢
        obtain ⟨s3, o3, rfl⟩ := exec_returned_cons p tid (.del_yield m) o2 rfl hret
        have t3 : tstep p tid s3 (.del_yield m) = some (s3, .del_try m, .thread_yield) := rfl
        rw [exec_cons_some _ _ _ _ _ _ _ _ t3] at hret ⊢
        simp only at hret ⊢
        have hlen3 : o3.length ≤ n := by
          simp only [List.length_cons] at hlen
          omega
        obtain ⟨k, failed, fin, f1, f2, f3, f4, f5⟩ := ih o3 hlen3 hret
        rw [f1, f2]
        refine ⟨k + 1, _ :: _ :: _ :: failed, fin, rfl, rfl, ?_, ?_, f5⟩
        · simp only [events, List.map_cons, failedRounds]
          simp only [events] at f3
          rw [f3]
        · intro r hr
          simp only [List.mem_cons] at hr
          rcases hr with rfl | rfl | rfl | hr
          · rfl
          · rfl
          · rfl
          · exact f4 r hr

/-- C2: an execution of `mrqd_delegate` that returns, whatever the other threads
do and for every message, is the barrier loop, then a number of failed rounds
(`tatas_try_lock` false, `qdq_enqueue` false, yield), each step of which leaves
the world as it was, then one last round.  Either the last round takes the
mutex and calls `funPtr` with the message, appending the call to the log, and
the call is the only scheduling event of the execution; or its `qdq_enqueue`
accepts the message, appending it to the queue, and the accepted enqueue is the
only scheduling event of the execution. -/
theorem delegate_schedules_once (p : Params) (tid : Nat) (m : Msg) (obs : List World)
    (hret : (exec p tid (.del_barrier m) obs).2.atRest = true) :
    ∃ spin k failed fin,
      (exec p tid (.del_barrier m) obs).1 = spin ++ failed ++ fin
      ∧ (exec p tid (.del_barrier m) obs).2 = .idle
      ∧ (∀ r ∈ spin, isBarrierRec r)
      ∧ events failed = failedRounds m k ∧ (∀ r ∈ failed, r.post = r.pre)
      ∧ ((directRun p m fin
            ∧ (events (exec p tid (.del_barrier m) obs).1).filter isScheduling = [.funPtr m])
          ∨ (delegatedRun m fin
            ∧ (events (exec p tid (.del_barrier m) obs).1).filter isScheduling
                = [.qdq_enqueue m true])) := by
  obtain ⟨spin, obs1, h1, h2, h3⟩ :=
    (barrier_phase_ret p tid (.del_barrier m) (.del_barrier_yield m) (.del_try m)
      (fun _ => rfl) (fun _ => rfl) rfl rfl obs).1 hret
  rw [h2] at hret
  obtain ⟨k, failed, fin, f1, f2, f3, f4, f5⟩ :=
    delegate_loop_ret p tid m obs1.length obs1 (le_refl _) hret
  rw [h1, h2, f1, f2]
  have hs := barrier_not_scheduling spin h3
  have hfl : (events failed).filter isScheduling = [] := by
    rw [f3]
    exact failedRounds_not_scheduling m k
  have hev : events (spin ++ (failed ++ fin)) = events spin ++ (events failed ++ events fin) := by
    simp [events]
  refine ⟨spin, k, failed, fin, by simp, rfl, h3, f3, f4, ?_⟩
  rw [hev, List.filter_append, List.filter_append, hs, hfl]
  rcases f5 with hd | hd
  · left
    refine ⟨hd, ?_⟩
    obtain ⟨acq, opn, drain, call, flush, unl, rr, rfl, e1, -, -, e2, e3, -, e4, -, e5, e6, e7⟩ := hd
    have hdr := drain_not_scheduling drain e3
    have : events ([acq, opn] ++ drain ++ [call, flush, unl, rr])
        = [acq.ev, opn.ev] ++ events drain ++ [call.ev, flush.ev, unl.ev, rr.ev] := by
      simp [events]
    rw [this, e1, e2, e4, e5, e6, e7]
    simp only [List.nil_append, List.filter_append, hdr]
    simp [List.filter_cons, isScheduling]
  · right
    refine ⟨hd, ?_⟩
    obtain ⟨t, e, rr, rfl, e1, -, e2, -, -, e3⟩ := hd
    simp [events, e1, e2, e3, List.filter_cons, isScheduling]

/-- C2, at a concrete input: with the default parameters the lock is held by
another thread; the first round fails against the closed queue, the second
enqueues the message (1, 8, 64). -/
theorem delegate_schedules_once_witness :
    events (exec defaultParams 0 (.del_barrier ⟨1, 8, 64⟩) delegateObs).1
        = [.loadBarrier 0, .tatas_try_lock false, .qdq_enqueue ⟨1, 8, 64⟩ false, .thread_yield,
            .tatas_try_lock false, .qdq_enqueue ⟨1, 8, 64⟩ true, .ret none]
    ∧ ∃ spin k failed fin,
      (exec defaultParams 0 (.del_barrier ⟨1, 8, 64⟩) delegateObs).1 = spin ++ failed ++ fin
      ∧ (exec defaultParams 0 (.del_barrier ⟨1, 8, 64⟩) delegateObs).2 = .idle
      ∧ (∀ r ∈ spin, isBarrierRec r)
      ∧ events failed = failedRounds ⟨1, 8, 64⟩ k ∧ (∀ r ∈ failed, r.post = r.pre)
      ∧ ((directRun defaultParams ⟨1, 8, 64⟩ fin
            ∧ (events (exec defaultParams 0 (.del_barrier ⟨1, 8, 64⟩) delegateObs).1).filter
                isScheduling = [.funPtr ⟨1, 8, 64⟩])
          ∨ (delegatedRun ⟨1, 8, 64⟩ fin
            ∧ (events (exec defaultParams 0 (.del_barrier ⟨1, 8, 64⟩) delegateObs).1).filter
                isScheduling = [.qdq_enqueue ⟨1, 8, 64⟩ true])) :=
  ⟨rfl, delegate_schedules_once defaultParams 0 ⟨1, 8, 64⟩ delegateObs rfl⟩

end MRQD
